import Mathlib

/-
Shallow embedding of src/nhpp.py (non-homogeneous Poisson process sampler).

Modelling conventions:
- Python floats are modelled by real numbers.
- np.sqrt is modelled by Real.sqrt.
- The two random sources are injected: the unit-rate exponential draws as a
  finite list (the sampling loop consumes one per iteration and the claims
  quantify over the injected sequence; an exhausted list ends the run with the
  arrivals produced so far), and the Uniform(0,1) draws as a stream indexed by
  how many have been consumed.
- Python exceptions are modelled by an explicit error type threaded through
  Except.  ZeroDivisionError is split into one constructor per raise site so
  that theorems can speak about a single division.
- A Python dict is modelled by its association list of items; dict literal
  construction (later duplicate keys overwrite the earlier value) is pyDict.
-/

open scoped Classical

namespace Nhpp

/-- Errors raised by the Python code.  dupKnots is the ValueError raised by
_get_rate_slopes, negRate the ValueError raised by _check_arrivals_positive,
domainViolation and dominationViolation the two ValueErrors of the lookup and
the thinning check; zeroDivisionInv, zeroDivisionPw and zeroDivisionRatio are
the ZeroDivisionError at the three division sites (inside _inv_int_rate_func,
inside the slope computation of _get_piecewise_val, and at the prob_ratio
division); indexError is an IndexError from a list subscript. -/
inductive NhppError where
  | dupKnots
  | negRate
  | domainViolation
  | dominationViolation
  | zeroDivisionInv
  | zeroDivisionPw
  | zeroDivisionRatio
  | indexError
  deriving DecidableEq

/-- Python list subscript l[i]: the value when i is in range, IndexError
otherwise. -/
def pyGet (l : List ℝ) (i : ℕ) : Except NhppError ℝ :=
  if h : i < l.length then .ok l[i] else .error .indexError

/-- Default-valued last element, modelling L[-1] on the always nonempty
integrated-rate list. -/
def lastD (l : List ℝ) : ℝ := l.getD (l.length - 1) 0

/-- One step of Python dict construction: a later binding of an existing key
overwrites the stored value in place, a new key is appended. -/
noncomputable def dictInsert (ps : List (ℝ × ℝ)) (kv : ℝ × ℝ) : List (ℝ × ℝ) :=
  match ps with
  | [] => [kv]
  | p :: rest => if p.1 = kv.1 then (p.1, kv.2) :: rest else p :: dictInsert rest kv

/-- A Python dict literal built from a sequence of key-value bindings. -/
noncomputable def pyDict (ps : List (ℝ × ℝ)) : List (ℝ × ℝ) :=
  ps.foldl dictInsert []

/-- Key comparison used for the sorted(knots.keys()) ordering. -/
def keyLE (p q : ℝ × ℝ) : Prop := p.1 ≤ q.1

noncomputable instance : DecidableRel keyLE := fun _ _ => Classical.propDecidable _

instance : IsTotal (ℝ × ℝ) keyLE := ⟨fun p q => le_total p.1 q.1⟩

instance : IsTrans (ℝ × ℝ) keyLE := ⟨fun _ _ _ h h2 => le_trans h h2⟩

/-- The dict items sorted by key, modelling the comprehension
\x7bi: dic[i] for i in sorted(dic.keys())\x7d of _get_sorted_pairs (on a dict the
keys are unique, so sorting the items by key is the same reordering). -/
noncomputable def sortedKnots (knots : List (ℝ × ℝ)) : List (ℝ × ℝ) :=
  List.insertionSort keyLE knots

/-- First component of _get_sorted_pairs: the sorted knot times. -/
noncomputable def kTimes (knots : List (ℝ × ℝ)) : List ℝ :=
  (sortedKnots knots).map Prod.fst

/-- Second component of _get_sorted_pairs: the rates listed in sorted-time
order. -/
noncomputable def kVals (knots : List (ℝ × ℝ)) : List ℝ :=
  (sortedKnots knots).map Prod.snd

/-- Slope list of _get_rate_slopes, one entry per consecutive knot pair.
Python indexes i from 1; here i runs from 0 and the pair (i, i+1) is used,
which enumerates the same differences.  The lists always have equal length at
the call sites, so out-of-range lookups (default 0) are never taken, and the
division is total: after the duplicate check of get_rate_slopes the
denominators are nonzero. -/
noncomputable def slopesOf (knot_vals knot_times : List ℝ) : List ℝ :=
  (List.range (knot_times.length - 1)).map fun i =>
    (knot_vals.getD (i + 1) 0 - knot_vals.getD i 0) /
      (knot_times.getD (i + 1) 0 - knot_times.getD i 0)

/-- Model of _get_rate_slopes: duplicate knot times (len(knot_times) differs
from the size of its set, i.e. of its deduplication) raise the ValueError
"Cannot infer piecewise function from knots."; otherwise the slopes are
returned. -/
noncomputable def get_rate_slopes (knot_vals knot_times : List ℝ) :
    Except NhppError (List ℝ) :=
  if knot_times.length ≠ knot_times.dedup.length then .error .dupKnots
  else .ok (slopesOf knot_vals knot_times)

/-- Value L[i] of the cumulative trapezoidal integral list built by
_get_integrated_rate_values: L[0] = 0 and
L[i+1] = L[i] + 0.5 * (v[i+1] + v[i]) * (t[i+1] - t[i]). -/
noncomputable def cumTrap (knot_vals knot_times : List ℝ) : ℕ → ℝ
  | 0 => 0
  | i + 1 =>
    cumTrap knot_vals knot_times i +
      0.5 * (knot_vals.getD (i + 1) 0 + knot_vals.getD i 0) *
        (knot_times.getD (i + 1) 0 - knot_times.getD i 0)

/-- Model of _get_integrated_rate_values: the list [L[0], ..., L[n-1]];
for an empty knot list Python still produces [0], hence the max with 1. -/
noncomputable def get_integrated_rate_values (knot_vals knot_times : List ℝ) :
    List ℝ :=
  (List.range (max 1 knot_times.length)).map (cumTrap knot_vals knot_times)

/-- Model of _check_arrivals_positive: a bare ValueError on any negative rate
(Python raises at the first negative value; observably the same condition). -/
noncomputable def check_arrivals_positive (knot_vals : List ℝ) :
    Except NhppError Unit :=
  if ∃ v ∈ knot_vals, v < 0 then .error .negRate else .ok ()

/-- The segment search loop of _get_piecewise_val:
while knot_times[j+1] < t: j += 1, raising IndexError when the subscript
j+1 leaves the list. -/
noncomputable def findSeg (times : List ℝ) (t : ℝ) (j : ℕ) : Except NhppError ℕ :=
  if h : j + 1 < times.length then
    if times.getD (j + 1) 0 < t then findSeg times t (j + 1) else .ok j
  else .error .indexError
termination_by times.length - j
decreasing_by omega

/-- Model of _get_piecewise_val: re-sorts the knots, checks the domain, builds
the inline slope list (whose divisions raise ZeroDivisionError exactly when
two adjacent sorted times coincide), locates the segment and interpolates. -/
noncomputable def get_piecewise_val (knots : List (ℝ × ℝ)) (t : ℝ) :
    Except NhppError ℝ :=
  match pyGet (kTimes knots) 0, pyGet (kTimes knots) ((kTimes knots).length - 1) with
  | .ok t0, .ok tl =>
    if t < t0 ∨ t > tl then .error .domainViolation
    else if ∃ i ∈ List.range ((kTimes knots).length - 1),
        (kTimes knots).getD (i + 1) 0 = (kTimes knots).getD i 0 then
      .error .zeroDivisionPw
    else
      match findSeg (kTimes knots) t 0 with
      | .error e => .error e
      | .ok j =>
        .ok ((kVals knots).getD j 0 +
          (slopesOf (kVals knots) (kTimes knots)).getD j 0 *
            (t - (kTimes knots).getD j 0))
  | .error e, _ => .error e
  | _, .error e => .error e

/-- Total value of the piecewise linear envelope at t, read off from
get_piecewise_val (0 when the lookup raises); used to state domination. -/
noncomputable def piecewiseVal (knots : List (ℝ × ℝ)) (t : ℝ) : ℝ :=
  match get_piecewise_val knots t with
  | .ok v => v
  | .error _ => 0

/-- Model of the inner _inv_int_rate_func closure of get_arrivals.  The
subscript s[j] is checked (it is the shortest list); the j-th entries of
knot_times, knot_vals and L exist whenever s[j] does at every call site, so
they are plain default lookups.  Both division sites raise ZeroDivisionError
when their denominator vanishes. -/
noncomputable def inv_int_rate_func (knot_times knot_vals s L : List ℝ)
    (u : ℝ) (j : ℕ) : Except NhppError ℝ :=
  match pyGet s j with
  | .error e => .error e
  | .ok sj =>
    if sj ≠ 0 then
      if knot_vals.getD j 0 +
          Real.sqrt ((knot_vals.getD j 0) ^ 2 + 2 * sj * (u - L.getD j 0)) = 0 then
        .error .zeroDivisionInv
      else
        .ok (knot_times.getD j 0 + 2 * (u - L.getD j 0) /
          (knot_vals.getD j 0 +
            Real.sqrt ((knot_vals.getD j 0) ^ 2 + 2 * sj * (u - L.getD j 0))))
    else
      if knot_vals.getD j 0 = 0 then .error .zeroDivisionInv
      else .ok (knot_times.getD j 0 + (u - L.getD j 0) / knot_vals.getD j 0)

/-- Total value of the inversion at a segment, read off from the branches of
inv_int_rate_func; equal to its ok value whenever no error is raised. -/
noncomputable def invVal (knot_times knot_vals s L : List ℝ) (u : ℝ) (j : ℕ) : ℝ :=
  if s.getD j 0 ≠ 0 then
    knot_times.getD j 0 + 2 * (u - L.getD j 0) /
      (knot_vals.getD j 0 +
        Real.sqrt ((knot_vals.getD j 0) ^ 2 + 2 * s.getD j 0 * (u - L.getD j 0)))
  else knot_times.getD j 0 + (u - L.getD j 0) / knot_vals.getD j 0

/-- The cursor advance loop of get_arrivals:
while L[j+1] < u_next and j < len(knot_times): j += 1.  Python evaluates the
subscript L[j+1] first, so it raises IndexError when j+1 leaves L even though
the second conjunct would be False. -/
noncomputable def advanceJ (L : List ℝ) (nT : ℕ) (u : ℝ) (j : ℕ) :
    Except NhppError ℕ :=
  if h : j + 1 < L.length then
    if L.getD (j + 1) 0 < u ∧ j < nT then advanceJ L nT u (j + 1) else .ok j
  else .error .indexError
termination_by L.length - j
decreasing_by omega

/-- The sampling loop of get_arrivals.  Each iteration consumes one
exponential draw e and forms u_next = u[-1] + e; it stops when u_next reaches
L[-1]; otherwise it advances the segment cursor, inverts, and either appends
unconditionally (no rate function) or runs the thinning step: one uniform
draw, the domination check (ValueError when the ratio exceeds 1,
ZeroDivisionError when the envelope value is 0), and acceptance exactly when
the uniform draw is below the ratio; the homogeneous clock advances either
way. -/
noncomputable def arrivalsLoop (knots : List (ℝ × ℝ))
    (knot_times knot_vals s L : List ℝ) (func : Option (ℝ → ℝ)) :
    List ℝ → (ℕ → ℝ) → ℝ → ℕ → Except NhppError (List ℝ)
  | [], _, _, _ => .ok []
  | e :: exps, unifs, uLast, j =>
    if uLast + e ≥ lastD L then .ok []
    else
      match advanceJ L knot_times.length (uLast + e) j with
      | .error er => .error er
      | .ok j2 =>
        match inv_int_rate_func knot_times knot_vals s L (uLast + e) j2 with
        | .error er => .error er
        | .ok aNext =>
          match func with
          | none =>
            match arrivalsLoop knots knot_times knot_vals s L none exps unifs
                (uLast + e) j2 with
            | .error er => .error er
            | .ok rest => .ok (aNext :: rest)
          | some f =>
            match get_piecewise_val knots aNext with
            | .error er => .error er
            | .ok pw =>
              if pw = 0 then .error .zeroDivisionRatio
              else if f aNext / pw > 1 then .error .dominationViolation
              else if unifs 0 < f aNext / pw then
                match arrivalsLoop knots knot_times knot_vals s L (some f) exps
                    (fun k => unifs (k + 1)) (uLast + e) j2 with
                | .error er => .error er
                | .ok rest => .ok (aNext :: rest)
              else
                arrivalsLoop knots knot_times knot_vals s L (some f) exps
                  (fun k => unifs (k + 1)) (uLast + e) j2

/-- Model of get_arrivals.  The knots argument is the item list of the Python
dict (so _check_is_dict, a type check, is the type of the argument); exps and
unifs are the injected exponential and uniform draws. -/
noncomputable def get_arrivals (knots : List (ℝ × ℝ)) (func : Option (ℝ → ℝ))
    (exps : List ℝ) (unifs : ℕ → ℝ) : Except NhppError (List ℝ) :=
  match check_arrivals_positive (kVals knots) with
  | .error e => .error e
  | .ok _ =>
    match get_rate_slopes (kVals knots) (kTimes knots) with
    | .error e => .error e
    | .ok s =>
      arrivalsLoop knots (kTimes knots) (kVals knots) s
        (get_integrated_rate_values (kVals knots) (kTimes knots))
        func exps unifs 0 0

/-- Validity of a knot mapping as the spec data model states it: at least two
knots, unique times, non-negative rates. -/
def ValidKnots (knots : List (ℝ × ℝ)) : Prop :=
  2 ≤ knots.length ∧ (knots.map Prod.fst).Nodup ∧ ∀ p ∈ knots, 0 ≤ p.2

end Nhpp

namespace Nhpp

/-! Generic helpers about the derived lists. -/

theorem pyGet_eq_ok {l : List ℝ} {i : ℕ} (h : i < l.length) :
    pyGet l i = .ok (l.getD i 0) := by
  simp [pyGet, h, List.getD_eq_getElem l 0 h]

theorem getD_range_map (f : ℕ → ℝ) {i m : ℕ} (h : i < m) :
    ((List.range m).map f).getD i 0 = f i := by
  have hi : i < ((List.range m).map f).length := by simpa using h
  rw [List.getD_eq_getElem _ 0 hi]
  simp

theorem slopesOf_length (V T : List ℝ) : (slopesOf V T).length = T.length - 1 := by
  simp [slopesOf]

theorem slopesOf_getD {V T : List ℝ} {i : ℕ} (h : i + 1 < T.length) :
    (slopesOf V T).getD i 0 =
      (V.getD (i + 1) 0 - V.getD i 0) / (T.getD (i + 1) 0 - T.getD i 0) := by
  unfold slopesOf
  exact getD_range_map _ (by omega)

theorem girv_length (V T : List ℝ) :
    (get_integrated_rate_values V T).length = max 1 T.length := by
  simp [get_integrated_rate_values]

theorem girv_getD {V T : List ℝ} {i : ℕ} (h : i < max 1 T.length) :
    (get_integrated_rate_values V T).getD i 0 = cumTrap V T i := by
  unfold get_integrated_rate_values
  exact getD_range_map _ h

theorem lastD_girv (V T : List ℝ) :
    lastD (get_integrated_rate_values V T) = cumTrap V T (T.length - 1) := by
  unfold lastD
  rw [girv_length]
  have h1 : max 1 T.length - 1 = T.length - 1 := by omega
  rw [h1, girv_getD (by omega)]

/-! Facts about the sorted knot lists. -/

theorem sortedKnots_perm (knots : List (ℝ × ℝ)) :
    List.Perm (sortedKnots knots) knots :=
  List.perm_insertionSort keyLE knots

theorem kTimes_length (knots : List (ℝ × ℝ)) : (kTimes knots).length = knots.length := by
  unfold kTimes
  rw [List.length_map]
  exact (sortedKnots_perm knots).length_eq

theorem kVals_length (knots : List (ℝ × ℝ)) : (kVals knots).length = knots.length := by
  unfold kVals
  rw [List.length_map]
  exact (sortedKnots_perm knots).length_eq

theorem kVals_mem {knots : List (ℝ × ℝ)} {v : ℝ} (h : v ∈ kVals knots) :
    ∃ p ∈ knots, p.2 = v := by
  unfold kVals at h
  rcases List.mem_map.mp h with ⟨p, hp, hv⟩
  exact ⟨p, (sortedKnots_perm knots).mem_iff.mp hp, hv⟩

theorem kVals_nonneg {knots : List (ℝ × ℝ)} (h : ∀ p ∈ knots, 0 ≤ p.2) :
    ∀ i : ℕ, 0 ≤ (kVals knots).getD i 0 := by
  intro i
  by_cases hi : i < (kVals knots).length
  · rw [List.getD_eq_getElem _ 0 hi]
    rcases kVals_mem (List.getElem_mem hi) with ⟨p, hp, hv⟩
    exact hv ▸ h p hp
  · rw [List.getD_eq_default _ 0 (by omega)]

theorem kTimes_sorted_le (knots : List (ℝ × ℝ)) : (kTimes knots).Sorted (· ≤ ·) := by
  have hs : (sortedKnots knots).Sorted keyLE :=
    List.sorted_insertionSort keyLE knots
  unfold kTimes
  unfold List.Sorted at hs ⊢
  rw [List.pairwise_map]
  exact hs.imp (fun h => h)

theorem kTimes_perm (knots : List (ℝ × ℝ)) :
    List.Perm (kTimes knots) (knots.map Prod.fst) :=
  (sortedKnots_perm knots).map Prod.fst

theorem kTimes_nodup {knots : List (ℝ × ℝ)} (h : (knots.map Prod.fst).Nodup) :
    (kTimes knots).Nodup :=
  (kTimes_perm knots).nodup_iff.mpr h

theorem kTimes_strict {knots : List (ℝ × ℝ)} (h : (knots.map Prod.fst).Nodup) :
    ∀ i k : ℕ, i < k → k < (kTimes knots).length →
      (kTimes knots).getD i 0 < (kTimes knots).getD k 0 := by
  intro i k hik hk
  have hs : (kTimes knots).Sorted (· < ·) :=
    (kTimes_sorted_le knots).lt_of_le (kTimes_nodup h)
  have hi : i < (kTimes knots).length := by omega
  rw [List.getD_eq_getElem _ 0 hi, List.getD_eq_getElem _ 0 hk]
  exact List.pairwise_iff_getElem.mp hs i k hi hk hik

end Nhpp

namespace Nhpp

/-! Abstract analysis of one segment of the inverted integrated rate.
Throughout, r is the rate at the left knot, s the slope of the segment,
del its positive time width, and d the residual u - L[j] inside the segment;
the right-knot rate is r + s * del and the integrated rate over the whole
segment is r * del + s * del ^ 2 / 2. -/

theorem segArg_nonneg {r s del d : ℝ} (hr : 0 ≤ r) (hr2 : 0 ≤ r + s * del)
    (hdel : 0 < del) (hd : 0 ≤ d) (hdM : d ≤ r * del + s * del ^ 2 / 2) :
    0 ≤ r ^ 2 + 2 * s * d := by
  rcases le_or_lt 0 s with hs | hs
  · nlinarith
  · nlinarith [sq_nonneg (r + s * del),
      mul_le_mul_of_nonpos_left hdM (by linarith : (2 : ℝ) * s ≤ 0)]

theorem segDenom_pos {r s del d : ℝ} (hr : 0 ≤ r) (hr2 : 0 ≤ r + s * del)
    (hdel : 0 < del) (hs : s ≠ 0) (hd : 0 < d) :
    0 < r + Real.sqrt (r ^ 2 + 2 * s * d) := by
  rcases eq_or_lt_of_le hr with h0 | h0
  · have hs0 : 0 < s := by
      rcases lt_or_gt_of_ne hs with h | h
      · exfalso
        have : s * del < 0 := mul_neg_of_neg_of_pos h hdel
        nlinarith
      · exact h
    have harg : 0 < r ^ 2 + 2 * s * d := by nlinarith
    have := Real.sqrt_pos.mpr harg
    linarith
  · have := Real.sqrt_nonneg (r ^ 2 + 2 * s * d)
    linarith

theorem segIdent {r s d : ℝ} (hs : s ≠ 0) (harg : 0 ≤ r ^ 2 + 2 * s * d)
    (hden : 0 < r + Real.sqrt (r ^ 2 + 2 * s * d)) :
    2 * d / (r + Real.sqrt (r ^ 2 + 2 * s * d)) =
      (Real.sqrt (r ^ 2 + 2 * s * d) - r) / s := by
  have hD2 : Real.sqrt (r ^ 2 + 2 * s * d) ^ 2 = r ^ 2 + 2 * s * d :=
    Real.sq_sqrt harg
  have hden2 : r + Real.sqrt (r ^ 2 + 2 * s * d) ≠ 0 := ne_of_gt hden
  field_simp
  nlinarith [hD2]

theorem segUpper {r s del d : ℝ} (hr : 0 ≤ r) (hr2 : 0 ≤ r + s * del)
    (hdel : 0 < del) (hs : s ≠ 0) (hd : 0 < d)
    (hdM : d ≤ r * del + s * del ^ 2 / 2) :
    2 * d / (r + Real.sqrt (r ^ 2 + 2 * s * d)) ≤ del := by
  have harg := segArg_nonneg hr hr2 hdel (le_of_lt hd) hdM
  have hden := segDenom_pos hr hr2 hdel hs hd
  have hD2 : Real.sqrt (r ^ 2 + 2 * s * d) ^ 2 = r ^ 2 + 2 * s * d :=
    Real.sq_sqrt harg
  have hD0 : 0 ≤ Real.sqrt (r ^ 2 + 2 * s * d) := Real.sqrt_nonneg _
  rw [segIdent hs harg hden]
  rcases lt_or_gt_of_ne hs with hneg | hpos
  · have hargGe : (r + s * del) ^ 2 ≤ r ^ 2 + 2 * s * d := by
      nlinarith [mul_le_mul_of_nonpos_left hdM (by linarith : (2 : ℝ) * s ≤ 0)]
    have hDge : r + s * del ≤ Real.sqrt (r ^ 2 + 2 * s * d) := by
      calc r + s * del = Real.sqrt ((r + s * del) ^ 2) := (Real.sqrt_sq hr2).symm
        _ ≤ _ := Real.sqrt_le_sqrt hargGe
    rw [div_le_iff_of_neg hneg]
    linarith
  · have hargLe : r ^ 2 + 2 * s * d ≤ (r + s * del) ^ 2 := by nlinarith
    have hDle : Real.sqrt (r ^ 2 + 2 * s * d) ≤ r + s * del := by
      calc Real.sqrt (r ^ 2 + 2 * s * d) ≤ Real.sqrt ((r + s * del) ^ 2) :=
            Real.sqrt_le_sqrt hargLe
        _ = r + s * del := Real.sqrt_sq hr2
    rw [div_le_iff₀ hpos]
    linarith

theorem segLower {r s del d : ℝ} (hr : 0 ≤ r) (hr2 : 0 ≤ r + s * del)
    (hdel : 0 < del) (hs : s ≠ 0) (hd : 0 < d) :
    0 < 2 * d / (r + Real.sqrt (r ^ 2 + 2 * s * d)) :=
  div_pos (by linarith) (segDenom_pos hr hr2 hdel hs hd)

theorem segMono {r s del d1 d2 : ℝ} (hr : 0 ≤ r) (hr2 : 0 ≤ r + s * del)
    (hdel : 0 < del) (hs : s ≠ 0) (h1 : 0 ≤ d1) (h12 : d1 < d2)
    (h2M : d2 ≤ r * del + s * del ^ 2 / 2) :
    2 * d1 / (r + Real.sqrt (r ^ 2 + 2 * s * d1)) <
      2 * d2 / (r + Real.sqrt (r ^ 2 + 2 * s * d2)) := by
  have hlow := segLower hr hr2 hdel hs (by linarith : (0 : ℝ) < d2)
  rcases eq_or_lt_of_le h1 with h10 | h1pos
  · rw [← h10]
    simpa using hlow
  · have harg1 : 0 ≤ r ^ 2 + 2 * s * d1 :=
      segArg_nonneg hr hr2 hdel h1 (by linarith)
    have harg2 : 0 ≤ r ^ 2 + 2 * s * d2 :=
      segArg_nonneg hr hr2 hdel (by linarith) h2M
    have hden1 := segDenom_pos hr hr2 hdel hs h1pos
    have hden2 := segDenom_pos hr hr2 hdel hs (by linarith : (0 : ℝ) < d2)
    rw [segIdent hs harg1 hden1, segIdent hs harg2 hden2]
    rcases lt_or_gt_of_ne hs with hneg | hpos
    · have hDlt : Real.sqrt (r ^ 2 + 2 * s * d2) < Real.sqrt (r ^ 2 + 2 * s * d1) :=
        Real.sqrt_lt_sqrt harg2 (by nlinarith)
      rw [div_lt_div_right_of_neg hneg]
      linarith
    · have hDlt : Real.sqrt (r ^ 2 + 2 * s * d1) < Real.sqrt (r ^ 2 + 2 * s * d2) :=
        Real.sqrt_lt_sqrt harg1 (by nlinarith)
      rw [div_lt_div_iff_of_pos_right hpos]
      linarith

end Nhpp

namespace Nhpp

/-- The facts about the four derived lists (sorted times, rates in that order,
slopes, cumulative integrals) that the sampling loop analysis uses; they hold
for every valid knot mapping once get_arrivals has passed its checks. -/
structure SegCtx (T V S L : List ℝ) : Prop where
  hn : 2 ≤ T.length
  hT : ∀ i, i + 1 < T.length → T.getD i 0 < T.getD (i + 1) 0
  hV : ∀ i, 0 ≤ V.getD i 0
  hS : S = slopesOf V T
  hL : L = get_integrated_rate_values V T

theorem SegCtx.Llen {T V S L : List ℝ} (c : SegCtx T V S L) :
    L.length = T.length := by
  rw [c.hL, girv_length]
  have := c.hn
  omega

theorem SegCtx.Slen {T V S L : List ℝ} (c : SegCtx T V S L) :
    S.length = T.length - 1 := by
  rw [c.hS, slopesOf_length]

theorem SegCtx.LgetD {T V S L : List ℝ} (c : SegCtx T V S L) {i : ℕ}
    (h : i < T.length) : L.getD i 0 = cumTrap V T i := by
  rw [c.hL]
  exact girv_getD (by omega)

theorem SegCtx.Lsucc {T V S L : List ℝ} (c : SegCtx T V S L) {i : ℕ}
    (h : i + 1 < T.length) :
    L.getD (i + 1) 0 = L.getD i 0 +
      0.5 * (V.getD (i + 1) 0 + V.getD i 0) * (T.getD (i + 1) 0 - T.getD i 0) := by
  rw [c.LgetD h, c.LgetD (by omega : i < T.length)]
  rfl

theorem SegCtx.Tmono {T V S L : List ℝ} (c : SegCtx T V S L) {i k : ℕ}
    (hik : i ≤ k) (hk : k < T.length) : T.getD i 0 ≤ T.getD k 0 := by
  induction k with
  | zero =>
    have h0 : i = 0 := by omega
    simp [h0]
  | succ k ih =>
    rcases Nat.lt_or_ge i (k + 1) with h | h
    · have h1 : T.getD i 0 ≤ T.getD k 0 := ih (by omega) (by omega)
      have h2 := c.hT k hk
      linarith
    · have h0 : i = k + 1 := by omega
      simp [h0]

theorem SegCtx.Tlt {T V S L : List ℝ} (c : SegCtx T V S L) {i k : ℕ}
    (hik : i < k) (hk : k < T.length) : T.getD i 0 < T.getD k 0 := by
  have h1 : T.getD i 0 ≤ T.getD (k - 1) 0 := c.Tmono (by omega) (by omega)
  have h2 : T.getD (k - 1) 0 < T.getD (k - 1 + 1) 0 := c.hT (k - 1) (by omega)
  have h3 : k - 1 + 1 = k := by omega
  rw [h3] at h2
  linarith

theorem SegCtx.Lmono {T V S L : List ℝ} (c : SegCtx T V S L) {i k : ℕ}
    (hik : i ≤ k) (hk : k < T.length) : L.getD i 0 ≤ L.getD k 0 := by
  induction k with
  | zero =>
    have h0 : i = 0 := by omega
    simp [h0]
  | succ k ih =>
    rcases Nat.lt_or_ge i (k + 1) with h | h
    · have h1 : L.getD i 0 ≤ L.getD k 0 := ih (by omega) (by omega)
      have h2 := c.Lsucc hk
      have h3 := c.hV k
      have h4 := c.hV (k + 1)
      have h5 := c.hT k hk
      nlinarith
    · have h0 : i = k + 1 := by omega
      simp [h0]

theorem SegCtx.lastD_L {T V S L : List ℝ} (c : SegCtx T V S L) :
    lastD L = L.getD (T.length - 1) 0 := by
  unfold lastD
  rw [c.Llen]

theorem SegCtx.SgetD {T V S L : List ℝ} (c : SegCtx T V S L) {i : ℕ}
    (h : i + 1 < T.length) :
    S.getD i 0 = (V.getD (i + 1) 0 - V.getD i 0) / (T.getD (i + 1) 0 - T.getD i 0) := by
  rw [c.hS]
  exact slopesOf_getD h

theorem SegCtx.S_mul {T V S L : List ℝ} (c : SegCtx T V S L) {i : ℕ}
    (h : i + 1 < T.length) :
    S.getD i 0 * (T.getD (i + 1) 0 - T.getD i 0) = V.getD (i + 1) 0 - V.getD i 0 := by
  rw [c.SgetD h]
  have hne : T.getD (i + 1) 0 - T.getD i 0 ≠ 0 := by
    have := c.hT i h
    linarith
  exact div_mul_cancel₀ _ hne

end Nhpp

namespace Nhpp

/-- The cursor advance loop never leaves the list and lands on the segment
whose integrated-rate bracket contains u: starting below u it stops at the
first j2 with u ≤ L[j2+1], never resetting and never raising. -/
theorem advanceJ_spec_aux {T V S L : List ℝ} (c : SegCtx T V S L) {u : ℝ}
    (hu : u < lastD L) :
    ∀ m j, L.length - j ≤ m → j + 1 < L.length → L.getD j 0 < u →
      ∃ j2, advanceJ L T.length u j = .ok j2 ∧ j ≤ j2 ∧ j2 + 1 < L.length ∧
        L.getD j2 0 < u ∧ u ≤ L.getD (j2 + 1) 0 := by
  intro m
  induction m with
  | zero =>
    intro j hm hj _
    omega
  | succ m ih =>
    intro j hm hj hLj
    rw [advanceJ, dif_pos hj]
    by_cases hcond : L.getD (j + 1) 0 < u ∧ j < T.length
    · rw [if_pos hcond]
      have hlast : lastD L = L.getD (L.length - 1) 0 := rfl
      have hne : j + 1 ≠ L.length - 1 := by
        intro heq
        rw [heq] at hcond
        rw [hlast] at hu
        linarith [hcond.1]
      obtain ⟨j2, h1, h2, h3, h4, h5⟩ := ih (j + 1) (by omega) (by omega) hcond.1
      exact ⟨j2, h1, by omega, h3, h4, h5⟩
    · rw [if_neg hcond]
      refine ⟨j, rfl, le_refl j, hj, hLj, ?_⟩
      have hjT : j < T.length := by
        have := c.Llen
        omega
      rcases not_and_or.mp hcond with h | h
      · exact le_of_not_lt h
      · exact absurd hjT h

theorem advanceJ_spec {T V S L : List ℝ} (c : SegCtx T V S L) {u : ℝ}
    (hu : u < lastD L) {j : ℕ} (hj : j + 1 < L.length) (hLj : L.getD j 0 < u) :
    ∃ j2, advanceJ L T.length u j = .ok j2 ∧ j ≤ j2 ∧ j2 + 1 < L.length ∧
      L.getD j2 0 < u ∧ u ≤ L.getD (j2 + 1) 0 :=
  advanceJ_spec_aux c hu (L.length - j) j (le_refl _) hj hLj

/-- The segment search of _get_piecewise_val terminates inside the list on a
segment bracketing t, for any t at most the last knot time. -/
theorem findSeg_spec_aux {times : List ℝ} {t : ℝ}
    (htl : t ≤ times.getD (times.length - 1) 0) :
    ∀ m j, times.length - j ≤ m → j + 1 < times.length → times.getD j 0 ≤ t →
      ∃ j2, findSeg times t j = .ok j2 ∧ j ≤ j2 ∧ j2 + 1 < times.length ∧
        times.getD j2 0 ≤ t ∧ t ≤ times.getD (j2 + 1) 0 := by
  intro m
  induction m with
  | zero =>
    intro j hm hj _
    omega
  | succ m ih =>
    intro j hm hj hTj
    rw [findSeg, dif_pos hj]
    by_cases hcond : times.getD (j + 1) 0 < t
    · rw [if_pos hcond]
      have hne : j + 1 ≠ times.length - 1 := by
        intro heq
        rw [heq] at hcond
        linarith
      obtain ⟨j2, h1, h2, h3, h4, h5⟩ :=
        ih (j + 1) (by omega) (by omega) (le_of_lt hcond)
      exact ⟨j2, h1, by omega, h3, h4, h5⟩
    · rw [if_neg hcond]
      exact ⟨j, rfl, le_refl j, hj, hTj, le_of_not_lt hcond⟩

theorem findSeg_spec {times : List ℝ} {t : ℝ}
    (htl : t ≤ times.getD (times.length - 1) 0) {j : ℕ}
    (hj : j + 1 < times.length) (hTj : times.getD j 0 ≤ t) :
    ∃ j2, findSeg times t j = .ok j2 ∧ j ≤ j2 ∧ j2 + 1 < times.length ∧
      times.getD j2 0 ≤ t ∧ t ≤ times.getD (j2 + 1) 0 :=
  findSeg_spec_aux htl (times.length - j) j (le_refl _) hj hTj

end Nhpp

namespace Nhpp

/-- Shared numeric facts for a segment j bracketed by L[j] ≤ u ≤ L[j+1]. -/
theorem seg_facts {T V S L : List ℝ} (c : SegCtx T V S L) {u : ℝ} {j : ℕ}
    (hj : j + 1 < T.length) (hhi : u ≤ L.getD (j + 1) 0) :
    0 ≤ V.getD j 0 + S.getD j 0 * (T.getD (j + 1) 0 - T.getD j 0) ∧
      u - L.getD j 0 ≤ V.getD j 0 * (T.getD (j + 1) 0 - T.getD j 0) +
        S.getD j 0 * (T.getD (j + 1) 0 - T.getD j 0) ^ 2 / 2 := by
  have hsm := c.S_mul hj
  have hLs := c.Lsucc hj
  constructor
  · rw [hsm]
    have := c.hV (j + 1)
    linarith
  · have h3 : S.getD j 0 * (T.getD (j + 1) 0 - T.getD j 0) ^ 2 / 2 =
        (V.getD (j + 1) 0 - V.getD j 0) * (T.getD (j + 1) 0 - T.getD j 0) / 2 := by
      rw [pow_two, ← mul_assoc, hsm]
    have h4 := hhi
    rw [hLs] at h4
    rw [h3]
    nlinarith [h4]

/-- On a reachable segment the inversion raises nothing, its value is invVal,
and that value lies strictly right of the left knot and at most at the right
knot. -/
theorem inv_ok {T V S L : List ℝ} (c : SegCtx T V S L) {u : ℝ} {j : ℕ}
    (hj : j + 1 < T.length) (hlo : L.getD j 0 < u) (hhi : u ≤ L.getD (j + 1) 0) :
    inv_int_rate_func T V S L u j = .ok (invVal T V S L u j) ∧
      T.getD j 0 < invVal T V S L u j ∧
      invVal T V S L u j ≤ T.getD (j + 1) 0 := by
  have hjS : j < S.length := by
    have := c.Slen
    omega
  have hpg : pyGet S j = .ok (S.getD j 0) := pyGet_eq_ok hjS
  have hdel : 0 < T.getD (j + 1) 0 - T.getD j 0 := by
    have := c.hT j hj
    linarith
  have hr : 0 ≤ V.getD j 0 := c.hV j
  obtain ⟨hr2, hdM⟩ := seg_facts c hj hhi
  have hd : 0 < u - L.getD j 0 := by linarith
  by_cases hs : S.getD j 0 ≠ 0
  · have hden := segDenom_pos hr hr2 hdel hs hd
    have hup := segUpper hr hr2 hdel hs hd hdM
    have hlow := segLower hr hr2 hdel hs hd
    unfold inv_int_rate_func invVal
    rw [hpg]
    simp only [hs, if_true, ne_eq, not_false_eq_true]
    rw [if_neg (by linarith : ¬ V.getD j 0 +
      Real.sqrt (V.getD j 0 ^ 2 + 2 * S.getD j 0 * (u - L.getD j 0)) = 0)]
    refine ⟨rfl, by linarith, by linarith⟩
  · push_neg at hs
    have hrpos : 0 < V.getD j 0 := by
      rcases eq_or_lt_of_le hr with h0 | h0
      · exfalso
        rw [hs] at hdM
        nlinarith
      · exact h0
    unfold inv_int_rate_func invVal
    rw [hpg]
    simp only [hs, ne_eq, not_true_eq_false, if_false]
    rw [if_neg (ne_of_gt hrpos)]
    have h1 : 0 < (u - L.getD j 0) / V.getD j 0 := div_pos hd hrpos
    have h2 : (u - L.getD j 0) / V.getD j 0 ≤ T.getD (j + 1) 0 - T.getD j 0 := by
      rw [div_le_iff₀ hrpos]
      rw [hs] at hdM
      nlinarith
    refine ⟨rfl, by linarith, by linarith⟩

/-- The inversion value at the left end of the bracket is the left knot
time. -/
theorem invVal_at_left (T V S L : List ℝ) (j : ℕ) :
    invVal T V S L (L.getD j 0) j = T.getD j 0 := by
  unfold invVal
  split <;> simp

/-- The inversion value never exceeds the right knot time, including at the
left end of the bracket. -/
theorem invVal_le_right {T V S L : List ℝ} (c : SegCtx T V S L) {u : ℝ} {j : ℕ}
    (hj : j + 1 < T.length) (hlo : L.getD j 0 ≤ u) (hhi : u ≤ L.getD (j + 1) 0) :
    invVal T V S L u j ≤ T.getD (j + 1) 0 := by
  rcases eq_or_lt_of_le hlo with h0 | h0
  · rw [← h0, invVal_at_left]
    exact le_of_lt (c.hT j hj)
  · exact (inv_ok c hj h0 hhi).2.2

/-- Strict monotonicity of the inversion in u on one segment bracket. -/
theorem inv_mono {T V S L : List ℝ} (c : SegCtx T V S L) {u1 u2 : ℝ} {j : ℕ}
    (hj : j + 1 < T.length) (h1 : L.getD j 0 ≤ u1) (h12 : u1 < u2)
    (h2 : u2 ≤ L.getD (j + 1) 0) :
    invVal T V S L u1 j < invVal T V S L u2 j := by
  have hdel : 0 < T.getD (j + 1) 0 - T.getD j 0 := by
    have := c.hT j hj
    linarith
  have hr : 0 ≤ V.getD j 0 := c.hV j
  obtain ⟨hr2, hdM⟩ := seg_facts c hj h2
  by_cases hs : S.getD j 0 ≠ 0
  · have := segMono hr hr2 hdel hs (by linarith : 0 ≤ u1 - L.getD j 0)
      (by linarith : u1 - L.getD j 0 < u2 - L.getD j 0) hdM
    unfold invVal
    simp only [hs, if_true, ne_eq, not_false_eq_true]
    linarith
  · push_neg at hs
    have hrpos : 0 < V.getD j 0 := by
      rcases eq_or_lt_of_le hr with h0 | h0
      · exfalso
        rw [hs] at hdM
        nlinarith
      · exact h0
    unfold invVal
    simp only [hs, ne_eq, not_true_eq_false, if_false]
    have hlt : (u1 - L.getD j 0) / V.getD j 0 < (u2 - L.getD j 0) / V.getD j 0 := by
      rw [div_lt_div_iff_of_pos_right hrpos]
      linarith
    linarith

end Nhpp

namespace Nhpp

/-- Master invariant of the sampling loop: starting from a state whose cursor
brackets the homogeneous clock, every successful run returns a strictly
increasing list of arrivals, all strictly above the inversion value of the
current state and at most the last knot time. -/
theorem arrivalsLoop_ok_spec {T V S L : List ℝ} (c : SegCtx T V S L)
    (knots : List (ℝ × ℝ)) (func : Option (ℝ → ℝ)) :
    ∀ (exps : List ℝ) (unifs : ℕ → ℝ) (uLast : ℝ) (j : ℕ) (l : List ℝ),
      (∀ e ∈ exps, (0 : ℝ) < e) →
      j + 1 < L.length →
      L.getD j 0 ≤ uLast → uLast ≤ L.getD (j + 1) 0 →
      arrivalsLoop knots T V S L func exps unifs uLast j = .ok l →
      l.Chain' (· < ·) ∧
        ∀ a ∈ l, invVal T V S L uLast j < a ∧ a ≤ T.getD (T.length - 1) 0 := by
  intro exps
  induction exps with
  | nil =>
    intro unifs uLast j l _ _ _ _ hok
    rw [arrivalsLoop] at hok
    rcases hok
    exact ⟨List.chain'_nil, by simp⟩
  | cons e rest ih =>
    intro unifs uLast j l hpos hj hinv2 hinv3 hok
    rw [arrivalsLoop] at hok
    by_cases hterm : uLast + e ≥ lastD L
    · rw [if_pos hterm] at hok
      rcases hok
      exact ⟨List.chain'_nil, by simp⟩
    · rw [if_neg hterm] at hok
      have hu : uLast + e < lastD L := lt_of_not_ge hterm
      have hepos : 0 < e := hpos e (by simp)
      have hLj : L.getD j 0 < uLast + e := by linarith
      obtain ⟨j2, hadv, hjj2, hj2, hLj2, huj2⟩ := advanceJ_spec c hu hj hLj
      have hj2T : j2 + 1 < T.length := by
        have := c.Llen
        omega
      have hjT : j + 1 < T.length := by
        have := c.Llen
        omega
      obtain ⟨hinv, hlow, hup⟩ := inv_ok c hj2T hLj2 huj2
      rw [hadv] at hok
      simp only at hok
      rw [hinv] at hok
      simp only at hok
      have hstep : invVal T V S L uLast j < invVal T V S L (uLast + e) j2 := by
        rcases eq_or_lt_of_le hjj2 with heq | hlt2
        · rw [← heq] at hLj2 huj2 ⊢
          exact inv_mono c hjT hinv2 (by linarith) huj2
        · have h1 : invVal T V S L uLast j ≤ T.getD (j + 1) 0 :=
            invVal_le_right c hjT hinv2 hinv3
          have h2 : T.getD (j + 1) 0 ≤ T.getD j2 0 :=
            c.Tmono (by omega) (by omega)
          linarith
      have hupLast : invVal T V S L (uLast + e) j2 ≤ T.getD (T.length - 1) 0 := by
        have h2 : T.getD (j2 + 1) 0 ≤ T.getD (T.length - 1) 0 :=
          c.Tmono (by omega) (by omega)
        linarith
      have hrestPos : ∀ x ∈ rest, (0 : ℝ) < x := fun x hx => hpos x (by simp [hx])
      match func with
      | none =>
        cases hrec : arrivalsLoop knots T V S L none rest unifs (uLast + e) j2 with
        | error er =>
          rw [hrec] at hok
          rcases hok
        | ok rest2 =>
          rw [hrec] at hok
          simp only [Except.ok.injEq] at hok
          obtain ⟨hchain, hbound⟩ :=
            ih unifs (uLast + e) j2 rest2 hrestPos hj2 (le_of_lt hLj2) huj2 hrec
          rw [← hok]
          constructor
          · refine List.chain'_cons'.mpr ⟨?_, hchain⟩
            intro b hb
            have hbmem : b ∈ rest2 := List.mem_of_mem_head? hb
            exact (hbound b hbmem).1
          · intro a ha
            rcases List.mem_cons.mp ha with h | h
            · exact h ▸ ⟨hstep, hupLast⟩
            · obtain ⟨h1, h2⟩ := hbound a h
              exact ⟨lt_trans hstep h1, h2⟩
      | some f =>
        cases hpw : get_piecewise_val knots (invVal T V S L (uLast + e) j2) with
        | error er =>
          rw [hpw] at hok
          rcases hok
        | ok pw =>
          rw [hpw] at hok
          simp only at hok
          by_cases hpw0 : pw = 0
          · rw [if_pos hpw0] at hok
            rcases hok
          · rw [if_neg hpw0] at hok
            by_cases hdom : f (invVal T V S L (uLast + e) j2) / pw > 1
            · rw [if_pos hdom] at hok
              rcases hok
            · rw [if_neg hdom] at hok
              by_cases hacc : unifs 0 < f (invVal T V S L (uLast + e) j2) / pw
              · rw [if_pos hacc] at hok
                cases hrec : arrivalsLoop knots T V S L (some f) rest
                    (fun k => unifs (k + 1)) (uLast + e) j2 with
                | error er =>
                  rw [hrec] at hok
                  rcases hok
                | ok rest2 =>
                  rw [hrec] at hok
                  simp only [Except.ok.injEq] at hok
                  obtain ⟨hchain, hbound⟩ := ih (fun k => unifs (k + 1))
                    (uLast + e) j2 rest2 hrestPos hj2 (le_of_lt hLj2) huj2 hrec
                  rw [← hok]
                  constructor
                  · refine List.chain'_cons'.mpr ⟨?_, hchain⟩
                    intro b hb
                    exact (hbound b (List.mem_of_mem_head? hb)).1
                  · intro a ha
                    rcases List.mem_cons.mp ha with h | h
                    · exact h ▸ ⟨hstep, hupLast⟩
                    · obtain ⟨h1, h2⟩ := hbound a h
                      exact ⟨lt_trans hstep h1, h2⟩
              · rw [if_neg hacc] at hok
                obtain ⟨hchain, hbound⟩ := ih (fun k => unifs (k + 1))
                  (uLast + e) j2 l hrestPos hj2 (le_of_lt hLj2) huj2 hok
                refine ⟨hchain, fun a ha => ?_⟩
                obtain ⟨h1, h2⟩ := hbound a ha
                exact ⟨lt_trans hstep h1, h2⟩

end Nhpp

namespace Nhpp

theorem pyGet_ok {l : List ℝ} {i : ℕ} {x : ℝ} (h : pyGet l i = .ok x) :
    i < l.length ∧ x = l.getD i 0 := by
  unfold pyGet at h
  split at h
  · rename_i hi
    injection h with h2
    exact ⟨hi, by rw [← h2, List.getD_eq_getElem l 0 hi]⟩
  · cases h

theorem pyGet_error {l : List ℝ} {i : ℕ} {e : NhppError}
    (h : pyGet l i = .error e) : e = .indexError := by
  unfold pyGet at h
  split at h
  · cases h
  · injection h with h2
    exact h2.symm

theorem findSeg_error_aux {times : List ℝ} {t : ℝ} :
    ∀ m j e, times.length - j ≤ m → findSeg times t j = .error e →
      e = .indexError := by
  intro m
  induction m with
  | zero =>
    intro j e hm h
    rw [findSeg] at h
    split at h
    · omega
    · injection h with h2
      exact h2.symm
  | succ m ih =>
    intro j e hm h
    rw [findSeg] at h
    split at h
    · rename_i hj
      split at h
      · exact ih (j + 1) e (by omega) h
      · cases h
    · injection h with h2
      exact h2.symm

theorem findSeg_error {times : List ℝ} {t : ℝ} {j : ℕ} {e : NhppError}
    (h : findSeg times t j = .error e) : e = .indexError :=
  findSeg_error_aux (times.length - j) j e (le_refl _) h

/-- Every error get_piecewise_val can raise; in particular it never raises
the inversion ZeroDivisionError nor the domination ValueError. -/
theorem get_piecewise_val_error {knots : List (ℝ × ℝ)} {t : ℝ} {e : NhppError}
    (h : get_piecewise_val knots t = .error e) :
    e = .indexError ∨ e = .domainViolation ∨ e = .zeroDivisionPw := by
  unfold get_piecewise_val at h
  cases h0 : pyGet (kTimes knots) 0 with
  | error e0 =>
    rw [h0] at h
    cases h1 : pyGet (kTimes knots) ((kTimes knots).length - 1) with
    | error e1 =>
      rw [h1] at h
      simp only at h
      injection h with h2
      exact Or.inl ((h2 ▸ pyGet_error h0) : e = .indexError)
    | ok tl =>
      rw [h1] at h
      simp only at h
      injection h with h2
      exact Or.inl ((h2 ▸ pyGet_error h0) : e = .indexError)
  | ok t0 =>
    rw [h0] at h
    cases h1 : pyGet (kTimes knots) ((kTimes knots).length - 1) with
    | error e1 =>
      rw [h1] at h
      simp only at h
      injection h with h2
      exact Or.inl ((h2 ▸ pyGet_error h1) : e = .indexError)
    | ok tl =>
      rw [h1] at h
      simp only at h
      split at h
      · injection h with h2
        exact Or.inr (Or.inl h2.symm)
      · split at h
        · injection h with h2
          exact Or.inr (Or.inr h2.symm)
        · cases h2 : findSeg (kTimes knots) t 0 with
          | error e2 =>
            rw [h2] at h
            simp only at h
            injection h with h3
            exact Or.inl ((h3 ▸ findSeg_error h2) : e = .indexError)
          | ok j =>
            rw [h2] at h
            simp only at h
            cases h

end Nhpp

namespace Nhpp

/-- With a valid knot context, a successful piecewise lookup returns a
non-negative value: the envelope interpolates between two non-negative
rates. -/
theorem get_piecewise_val_ok_nonneg {knots : List (ℝ × ℝ)} {S L : List ℝ}
    (c : SegCtx (kTimes knots) (kVals knots) S L) {t v : ℝ}
    (h : get_piecewise_val knots t = .ok v) : 0 ≤ v := by
  have hlen := c.hn
  have h0 : pyGet (kTimes knots) 0 = .ok ((kTimes knots).getD 0 0) :=
    pyGet_eq_ok (by omega)
  have h1 : pyGet (kTimes knots) ((kTimes knots).length - 1) =
      .ok ((kTimes knots).getD ((kTimes knots).length - 1) 0) :=
    pyGet_eq_ok (by omega)
  unfold get_piecewise_val at h
  rw [h0, h1] at h
  simp only at h
  split at h
  · cases h
  · rename_i hdom
    split at h
    · cases h
    · push_neg at hdom
      obtain ⟨ht0, htl⟩ := hdom
      cases h2 : findSeg (kTimes knots) t 0 with
      | error e2 =>
        rw [h2] at h
        simp only at h
        cases h
      | ok j =>
        rw [h2] at h
        simp only at h
        injection h with h3
        obtain ⟨j2, hfs, _, hj2, hTj2l, hTj2r⟩ :=
          findSeg_spec htl (by omega) ht0
        rw [h2] at hfs
        injection hfs with hj2eq
        rw [← hj2eq] at hj2 hTj2l hTj2r
        have hΔ : 0 < (kTimes knots).getD (j + 1) 0 - (kTimes knots).getD j 0 := by
          have := c.hT j hj2
          linarith
        have hr : 0 ≤ (kVals knots).getD j 0 := c.hV j
        have hr2 : 0 ≤ (kVals knots).getD (j + 1) 0 := c.hV (j + 1)
        have hsv : (slopesOf (kVals knots) (kTimes knots)).getD j 0 =
            ((kVals knots).getD (j + 1) 0 - (kVals knots).getD j 0) /
              ((kTimes knots).getD (j + 1) 0 - (kTimes knots).getD j 0) :=
          slopesOf_getD hj2
        rw [hsv] at h3
        rw [← h3]
        set tj := (kTimes knots).getD j 0 with htjdef
        set tj1 := (kTimes knots).getD (j + 1) 0 with htj1def
        set rj := (kVals knots).getD j 0 with hrjdef
        set rj1 := (kVals knots).getD (j + 1) 0 with hrj1def
        have hne : tj1 - tj ≠ 0 := ne_of_gt hΔ
        have hkey : (rj + (rj1 - rj) / (tj1 - tj) * (t - tj)) * (tj1 - tj) =
            rj * (tj1 - t) + rj1 * (t - tj) := by
          field_simp
          ring
        nlinarith [mul_nonneg hr (by linarith : (0 : ℝ) ≤ tj1 - t),
          mul_nonneg hr2 (by linarith : (0 : ℝ) ≤ t - tj)]

end Nhpp

namespace Nhpp

/-- The sampling loop never raises the ZeroDivisionError of the inversion: in
every reachable inversion state the zero-slope branch has a positive rate and
the quadratic branch a positive denominator. -/
theorem arrivalsLoop_ne_zeroDivInv {T V S L : List ℝ} (c : SegCtx T V S L)
    (knots : List (ℝ × ℝ)) (func : Option (ℝ → ℝ)) :
    ∀ (exps : List ℝ) (unifs : ℕ → ℝ) (uLast : ℝ) (j : ℕ),
      (∀ e ∈ exps, (0 : ℝ) < e) →
      j + 1 < L.length →
      L.getD j 0 ≤ uLast → uLast ≤ L.getD (j + 1) 0 →
      arrivalsLoop knots T V S L func exps unifs uLast j ≠
        .error .zeroDivisionInv := by
  intro exps
  induction exps with
  | nil =>
    intro unifs uLast j _ _ _ _ hok
    rw [arrivalsLoop] at hok
    cases hok
  | cons e rest ih =>
    intro unifs uLast j hpos hj hinv2 hinv3 hok
    rw [arrivalsLoop] at hok
    by_cases hterm : uLast + e ≥ lastD L
    · rw [if_pos hterm] at hok
      cases hok
    · rw [if_neg hterm] at hok
      have hu : uLast + e < lastD L := lt_of_not_ge hterm
      have hepos : 0 < e := hpos e (by simp)
      have hLj : L.getD j 0 < uLast + e := by linarith
      obtain ⟨j2, hadv, hjj2, hj2, hLj2, huj2⟩ := advanceJ_spec c hu hj hLj
      have hj2T : j2 + 1 < T.length := by
        have := c.Llen
        omega
      obtain ⟨hinv, _, _⟩ := inv_ok c hj2T hLj2 huj2
      rw [hadv] at hok
      simp only at hok
      rw [hinv] at hok
      simp only at hok
      have hrestPos : ∀ x ∈ rest, (0 : ℝ) < x := fun x hx => hpos x (by simp [hx])
      match func, hok with
      | none, hok =>
        cases hrec : arrivalsLoop knots T V S L none rest unifs (uLast + e) j2 with
        | error er =>
          rw [hrec] at hok
          injection hok with h2
          exact ih unifs (uLast + e) j2 hrestPos hj2 (le_of_lt hLj2) huj2
            (h2 ▸ hrec)
        | ok rest2 =>
          rw [hrec] at hok
          cases hok
      | some f, hok =>
        cases hpw : get_piecewise_val knots (invVal T V S L (uLast + e) j2) with
        | error er =>
          rw [hpw] at hok
          simp only at hok
          injection hok with h2
          rcases get_piecewise_val_error hpw with h | h | h <;>
            (rw [h] at h2; cases h2)
        | ok pw =>
          rw [hpw] at hok
          simp only at hok
          by_cases hpw0 : pw = 0
          · rw [if_pos hpw0] at hok
            injection hok with h2
            cases h2
          · rw [if_neg hpw0] at hok
            by_cases hdom : f (invVal T V S L (uLast + e) j2) / pw > 1
            · rw [if_pos hdom] at hok
              injection hok with h2
              cases h2
            · rw [if_neg hdom] at hok
              by_cases hacc : unifs 0 < f (invVal T V S L (uLast + e) j2) / pw
              · rw [if_pos hacc] at hok
                cases hrec : arrivalsLoop knots T V S L (some f) rest
                    (fun k => unifs (k + 1)) (uLast + e) j2 with
                | error er =>
                  rw [hrec] at hok
                  injection hok with h2
                  exact ih (fun k => unifs (k + 1)) (uLast + e) j2 hrestPos hj2
                    (le_of_lt hLj2) huj2 (h2 ▸ hrec)
                | ok rest2 =>
                  rw [hrec] at hok
                  cases hok
              · rw [if_neg hacc] at hok
                exact ih (fun k => unifs (k + 1)) (uLast + e) j2 hrestPos hj2
                  (le_of_lt hLj2) huj2 hok

end Nhpp

namespace Nhpp

/-- If the supplied smooth function is dominated by the envelope on the whole
domain, the thinning loop never raises the domination ValueError. -/
theorem arrivalsLoop_ne_domination {knots : List (ℝ × ℝ)} {S L : List ℝ}
    (c : SegCtx (kTimes knots) (kVals knots) S L) {f : ℝ → ℝ}
    (hdomin : ∀ x, (kTimes knots).getD 0 0 ≤ x →
      x ≤ (kTimes knots).getD ((kTimes knots).length - 1) 0 →
      f x ≤ piecewiseVal knots x) :
    ∀ (exps : List ℝ) (unifs : ℕ → ℝ) (uLast : ℝ) (j : ℕ),
      (∀ e ∈ exps, (0 : ℝ) < e) →
      j + 1 < L.length →
      L.getD j 0 ≤ uLast → uLast ≤ L.getD (j + 1) 0 →
      arrivalsLoop knots (kTimes knots) (kVals knots) S L (some f) exps unifs
        uLast j ≠ .error .dominationViolation := by
  intro exps
  induction exps with
  | nil =>
    intro unifs uLast j _ _ _ _ hok
    rw [arrivalsLoop] at hok
    cases hok
  | cons e rest ih =>
    intro unifs uLast j hpos hj hinv2 hinv3 hok
    rw [arrivalsLoop] at hok
    by_cases hterm : uLast + e ≥ lastD L
    · rw [if_pos hterm] at hok
      cases hok
    · rw [if_neg hterm] at hok
      have hu : uLast + e < lastD L := lt_of_not_ge hterm
      have hepos : 0 < e := hpos e (by simp)
      have hLj : L.getD j 0 < uLast + e := by linarith
      obtain ⟨j2, hadv, hjj2, hj2, hLj2, huj2⟩ := advanceJ_spec c hu hj hLj
      have hj2T : j2 + 1 < (kTimes knots).length := by
        have := c.Llen
        omega
      obtain ⟨hinv, hlow, hup⟩ := inv_ok c hj2T hLj2 huj2
      rw [hadv] at hok
      simp only at hok
      rw [hinv] at hok
      simp only at hok
      have hrestPos : ∀ x ∈ rest, (0 : ℝ) < x := fun x hx => hpos x (by simp [hx])
      cases hpw : get_piecewise_val knots
          (invVal (kTimes knots) (kVals knots) S L (uLast + e) j2) with
      | error er =>
        rw [hpw] at hok
        simp only at hok
        injection hok with h2
        rcases get_piecewise_val_error hpw with h | h | h <;>
          (rw [h] at h2; cases h2)
      | ok pw =>
        rw [hpw] at hok
        simp only at hok
        by_cases hpw0 : pw = 0
        · rw [if_pos hpw0] at hok
          injection hok with h2
          cases h2
        · rw [if_neg hpw0] at hok
          have haT0 : (kTimes knots).getD 0 0 ≤
              invVal (kTimes knots) (kVals knots) S L (uLast + e) j2 := by
            have h1 : (kTimes knots).getD 0 0 ≤ (kTimes knots).getD j2 0 :=
              c.Tmono (by omega) (by omega)
            linarith
          have haT1 : invVal (kTimes knots) (kVals knots) S L (uLast + e) j2 ≤
              (kTimes knots).getD ((kTimes knots).length - 1) 0 := by
            have h1 : (kTimes knots).getD (j2 + 1) 0 ≤
                (kTimes knots).getD ((kTimes knots).length - 1) 0 :=
              c.Tmono (by omega) (by omega)
            linarith
          have hpwv : piecewiseVal knots
              (invVal (kTimes knots) (kVals knots) S L (uLast + e) j2) = pw := by
            unfold piecewiseVal
            rw [hpw]
          have hpwpos : 0 < pw :=
            lt_of_le_of_ne (get_piecewise_val_ok_nonneg c hpw) (Ne.symm hpw0)
          have hfle : f (invVal (kTimes knots) (kVals knots) S L (uLast + e) j2) ≤ pw := by
            have := hdomin _ haT0 haT1
            rw [hpwv] at this
            exact this
          have hnotdom : ¬ f (invVal (kTimes knots) (kVals knots) S L
              (uLast + e) j2) / pw > 1 := by
            rw [not_lt]
            exact (div_le_one hpwpos).mpr hfle
          rw [if_neg hnotdom] at hok
          by_cases hacc : unifs 0 < f (invVal (kTimes knots) (kVals knots) S L
              (uLast + e) j2) / pw
          · rw [if_pos hacc] at hok
            cases hrec : arrivalsLoop knots (kTimes knots) (kVals knots) S L
                (some f) rest (fun k => unifs (k + 1)) (uLast + e) j2 with
            | error er =>
              rw [hrec] at hok
              injection hok with h2
              exact ih (fun k => unifs (k + 1)) (uLast + e) j2 hrestPos hj2
                (le_of_lt hLj2) huj2 (h2 ▸ hrec)
            | ok rest2 =>
              rw [hrec] at hok
              cases hok
          · rw [if_neg hacc] at hok
            exact ih (fun k => unifs (k + 1)) (uLast + e) j2 hrestPos hj2
              (le_of_lt hLj2) huj2 hok

/-- Conversely, if the thinning loop raises the domination ValueError then
some in-domain point (the offending candidate) has envelope ratio above 1. -/
theorem arrivalsLoop_domination_reason {knots : List (ℝ × ℝ)} {S L : List ℝ}
    (c : SegCtx (kTimes knots) (kVals knots) S L) {f : ℝ → ℝ} :
    ∀ (exps : List ℝ) (unifs : ℕ → ℝ) (uLast : ℝ) (j : ℕ),
      (∀ e ∈ exps, (0 : ℝ) < e) →
      j + 1 < L.length →
      L.getD j 0 ≤ uLast → uLast ≤ L.getD (j + 1) 0 →
      arrivalsLoop knots (kTimes knots) (kVals knots) S L (some f) exps unifs
        uLast j = .error .dominationViolation →
      ∃ x, (kTimes knots).getD 0 0 ≤ x ∧
        x ≤ (kTimes knots).getD ((kTimes knots).length - 1) 0 ∧
        piecewiseVal knots x ≠ 0 ∧ f x / piecewiseVal knots x > 1 := by
  intro exps
  induction exps with
  | nil =>
    intro unifs uLast j _ _ _ _ hok
    rw [arrivalsLoop] at hok
    cases hok
  | cons e rest ih =>
    intro unifs uLast j hpos hj hinv2 hinv3 hok
    rw [arrivalsLoop] at hok
    by_cases hterm : uLast + e ≥ lastD L
    · rw [if_pos hterm] at hok
      cases hok
    · rw [if_neg hterm] at hok
      have hu : uLast + e < lastD L := lt_of_not_ge hterm
      have hepos : 0 < e := hpos e (by simp)
      have hLj : L.getD j 0 < uLast + e := by linarith
      obtain ⟨j2, hadv, hjj2, hj2, hLj2, huj2⟩ := advanceJ_spec c hu hj hLj
      have hj2T : j2 + 1 < (kTimes knots).length := by
        have := c.Llen
        omega
      obtain ⟨hinv, hlow, hup⟩ := inv_ok c hj2T hLj2 huj2
      rw [hadv] at hok
      simp only at hok
      rw [hinv] at hok
      simp only at hok
      have hrestPos : ∀ x ∈ rest, (0 : ℝ) < x := fun x hx => hpos x (by simp [hx])
      cases hpw : get_piecewise_val knots
          (invVal (kTimes knots) (kVals knots) S L (uLast + e) j2) with
      | error er =>
        rw [hpw] at hok
        simp only at hok
        injection hok with h2
        rcases get_piecewise_val_error hpw with h | h | h <;>
          (rw [h] at h2; cases h2)
      | ok pw =>
        rw [hpw] at hok
        simp only at hok
        by_cases hpw0 : pw = 0
        · rw [if_pos hpw0] at hok
          injection hok with h2
          cases h2
        · rw [if_neg hpw0] at hok
          have hpwv : piecewiseVal knots
              (invVal (kTimes knots) (kVals knots) S L (uLast + e) j2) = pw := by
            unfold piecewiseVal
            rw [hpw]
          by_cases hdom : f (invVal (kTimes knots) (kVals knots) S L
              (uLast + e) j2) / pw > 1
          · refine ⟨invVal (kTimes knots) (kVals knots) S L (uLast + e) j2,
              ?_, ?_, ?_, ?_⟩
            · have h1 : (kTimes knots).getD 0 0 ≤ (kTimes knots).getD j2 0 :=
                c.Tmono (by omega) (by omega)
              linarith
            · have h1 : (kTimes knots).getD (j2 + 1) 0 ≤
                  (kTimes knots).getD ((kTimes knots).length - 1) 0 :=
                c.Tmono (by omega) (by omega)
              linarith
            · rw [hpwv]
              exact hpw0
            · rw [hpwv]
              exact hdom
          · rw [if_neg hdom] at hok
            by_cases hacc : unifs 0 < f (invVal (kTimes knots) (kVals knots) S L
                (uLast + e) j2) / pw
            · rw [if_pos hacc] at hok
              cases hrec : arrivalsLoop knots (kTimes knots) (kVals knots) S L
                  (some f) rest (fun k => unifs (k + 1)) (uLast + e) j2 with
              | error er =>
                rw [hrec] at hok
                injection hok with h2
                exact ih (fun k => unifs (k + 1)) (uLast + e) j2 hrestPos hj2
                  (le_of_lt hLj2) huj2 (h2 ▸ hrec)
              | ok rest2 =>
                rw [hrec] at hok
                cases hok
            · rw [if_neg hacc] at hok
              exact ih (fun k => unifs (k + 1)) (uLast + e) j2 hrestPos hj2
                (le_of_lt hLj2) huj2 hok

end Nhpp

namespace Nhpp

/-- Parallel-run comparison: on the same exponential draws, a successful
thinning run returns at most as many arrivals as the run without a rate
function; the homogeneous clock and the cursor advance identically and
rejection only drops candidates. -/
theorem arrivalsLoop_thinning_le (knots : List (ℝ × ℝ))
    (T V S L : List ℝ) (f : ℝ → ℝ) :
    ∀ (exps : List ℝ) (unifs unifs0 : ℕ → ℝ) (uLast : ℝ) (j : ℕ) (lf : List ℝ),
      arrivalsLoop knots T V S L (some f) exps unifs uLast j = .ok lf →
      ∃ l0, arrivalsLoop knots T V S L none exps unifs0 uLast j = .ok l0 ∧
        lf.length ≤ l0.length := by
  intro exps
  induction exps with
  | nil =>
    intro unifs unifs0 uLast j lf hok
    rw [arrivalsLoop] at hok
    injection hok with h2
    exact ⟨[], by rw [arrivalsLoop], by simp [← h2]⟩
  | cons e rest ih =>
    intro unifs unifs0 uLast j lf hok
    rw [arrivalsLoop] at hok
    rw [arrivalsLoop]
    by_cases hterm : uLast + e ≥ lastD L
    · rw [if_pos hterm] at hok ⊢
      injection hok with h2
      exact ⟨[], rfl, by simp [← h2]⟩
    · rw [if_neg hterm] at hok ⊢
      cases hadv : advanceJ L T.length (uLast + e) j with
      | error er =>
        rw [hadv] at hok
        cases hok
      | ok j2 =>
        rw [hadv] at hok
        simp only at hok ⊢
        cases hinv : inv_int_rate_func T V S L (uLast + e) j2 with
        | error er =>
          rw [hinv] at hok
          cases hok
        | ok aNext =>
          rw [hinv] at hok
          simp only at hok ⊢
          cases hpw : get_piecewise_val knots aNext with
          | error er =>
            rw [hpw] at hok
            cases hok
          | ok pw =>
            rw [hpw] at hok
            simp only at hok
            by_cases hpw0 : pw = 0
            · rw [if_pos hpw0] at hok
              cases hok
            · rw [if_neg hpw0] at hok
              by_cases hdom : f aNext / pw > 1
              · rw [if_pos hdom] at hok
                cases hok
              · rw [if_neg hdom] at hok
                by_cases hacc : unifs 0 < f aNext / pw
                · rw [if_pos hacc] at hok
                  cases hrec : arrivalsLoop knots T V S L (some f) rest
                      (fun k => unifs (k + 1)) (uLast + e) j2 with
                  | error er =>
                    rw [hrec] at hok
                    cases hok
                  | ok rest2 =>
                    rw [hrec] at hok
                    injection hok with h2
                    obtain ⟨l0, hl0, hlen⟩ :=
                      ih (fun k => unifs (k + 1)) unifs0 (uLast + e) j2 rest2 hrec
                    rw [hl0]
                    refine ⟨aNext :: l0, rfl, ?_⟩
                    rw [← h2]
                    simpa using hlen
                · rw [if_neg hacc] at hok
                  obtain ⟨l0, hl0, hlen⟩ :=
                    ih (fun k => unifs (k + 1)) unifs0 (uLast + e) j2 lf hok
                  rw [hl0]
                  refine ⟨aNext :: l0, rfl, ?_⟩
                  simp only [List.length_cons]
                  omega

end Nhpp

namespace Nhpp

/-- A valid knot mapping yields the segment context for its derived lists. -/
theorem validCtx {knots : List (ℝ × ℝ)} (hval : ValidKnots knots) :
    SegCtx (kTimes knots) (kVals knots)
      (slopesOf (kVals knots) (kTimes knots))
      (get_integrated_rate_values (kVals knots) (kTimes knots)) := by
  refine ⟨?_, ?_, ?_, rfl, rfl⟩
  · rw [kTimes_length]
    exact hval.1
  · intro i h
    exact kTimes_strict hval.2.1 i (i + 1) (by omega) h
  · exact kVals_nonneg hval.2.2

theorem check_ok_of_nonneg {l : List ℝ} (h : ∀ v ∈ l, 0 ≤ v) :
    check_arrivals_positive l = .ok () := by
  unfold check_arrivals_positive
  rw [if_neg]
  push_neg
  intro v hv
  exact h v hv

theorem check_error_of_neg {l : List ℝ} (h : ∃ v ∈ l, v < 0) :
    check_arrivals_positive l = .error .negRate := by
  unfold check_arrivals_positive
  rw [if_pos h]

theorem slopes_ok_of_nodup {V T : List ℝ} (h : T.Nodup) :
    get_rate_slopes V T = .ok (slopesOf V T) := by
  unfold get_rate_slopes
  rw [if_neg]
  simp [List.dedup_eq_self.mpr h]

theorem slopes_error_of_dup {V T : List ℝ} (h : ¬ T.Nodup) :
    get_rate_slopes V T = .error .dupKnots := by
  unfold get_rate_slopes
  rw [if_pos]
  intro hlen
  apply h
  have hsub : T.dedup.Sublist T := List.dedup_sublist T
  have heq : T.dedup = T := hsub.eq_of_length hlen.symm
  rw [← heq]
  exact List.nodup_dedup T

/-- For valid knots the two checks pass and get_arrivals is the sampling loop
started at u = 0 in segment 0. -/
theorem get_arrivals_eq_loop {knots : List (ℝ × ℝ)} (hval : ValidKnots knots)
    (func : Option (ℝ → ℝ)) (exps : List ℝ) (unifs : ℕ → ℝ) :
    get_arrivals knots func exps unifs =
      arrivalsLoop knots (kTimes knots) (kVals knots)
        (slopesOf (kVals knots) (kTimes knots))
        (get_integrated_rate_values (kVals knots) (kTimes knots))
        func exps unifs 0 0 := by
  unfold get_arrivals
  have hchk : check_arrivals_positive (kVals knots) = .ok () :=
    check_ok_of_nonneg (by
      intro v hv
      rcases kVals_mem hv with ⟨p, hp, hpv⟩
      exact hpv ▸ hval.2.2 p hp)
  have hslp : get_rate_slopes (kVals knots) (kTimes knots) =
      .ok (slopesOf (kVals knots) (kTimes knots)) :=
    slopes_ok_of_nodup (kTimes_nodup hval.2.1)
  rw [hchk, hslp]

/-- The starting state of the loop satisfies the cursor invariant. -/
theorem start_invariant {knots : List (ℝ × ℝ)} (hval : ValidKnots knots) :
    0 + 1 < (get_integrated_rate_values (kVals knots) (kTimes knots)).length ∧
      (get_integrated_rate_values (kVals knots) (kTimes knots)).getD 0 0 ≤ 0 ∧
      (0 : ℝ) ≤ (get_integrated_rate_values (kVals knots) (kTimes knots)).getD 1 0 := by
  have c := validCtx hval
  have hlen := c.Llen
  have hn : 2 ≤ (kTimes knots).length := c.hn
  refine ⟨by omega, ?_, ?_⟩
  · rw [c.LgetD (by omega : 0 < (kTimes knots).length)]
    exact le_of_eq rfl
  · have h0 : (get_integrated_rate_values (kVals knots) (kTimes knots)).getD 0 0 = 0 := by
      rw [c.LgetD (by omega : 0 < (kTimes knots).length)]
      rfl
    have := c.Lmono (by omega : 0 ≤ 1) (by omega : 1 < (kTimes knots).length)
    rw [h0] at this
    exact this

theorem cumTrap_zero {V T : List ℝ} (h : ∀ i, V.getD i 0 = 0) :
    ∀ i, cumTrap V T i = 0 := by
  intro i
  induction i with
  | zero => rfl
  | succ i ih =>
    unfold cumTrap
    rw [ih, h, h]
    ring

theorem nodup_of_short {l : List ℝ} (h : l.length ≤ 1) : l.Nodup := by
  cases l with
  | nil => exact List.nodup_nil
  | cons a t =>
    cases t with
    | nil => simp
    | cons b t2 => simp at h

/-- When the total integrated rate is 0 the first draw already terminates the
loop, so get_arrivals returns the empty list for any non-negative draws. -/
theorem get_arrivals_empty_of_lastD_zero {knots : List (ℝ × ℝ)}
    (hnn : ∀ p ∈ knots, 0 ≤ p.2) (hnd : (knots.map Prod.fst).Nodup)
    (hzero : lastD (get_integrated_rate_values (kVals knots) (kTimes knots)) = 0)
    (func : Option (ℝ → ℝ)) {exps : List ℝ} (hexps : ∀ e ∈ exps, (0 : ℝ) ≤ e)
    (unifs : ℕ → ℝ) :
    get_arrivals knots func exps unifs = .ok [] := by
  unfold get_arrivals
  have hchk : check_arrivals_positive (kVals knots) = .ok () :=
    check_ok_of_nonneg (by
      intro v hv
      rcases kVals_mem hv with ⟨p, hp, hpv⟩
      exact hpv ▸ hnn p hp)
  have hslp : get_rate_slopes (kVals knots) (kTimes knots) =
      .ok (slopesOf (kVals knots) (kTimes knots)) :=
    slopes_ok_of_nodup (kTimes_nodup hnd)
  rw [hchk, hslp]
  simp only
  cases exps with
  | nil => rw [arrivalsLoop]
  | cons e rest =>
    rw [arrivalsLoop, if_pos]
    rw [hzero]
    have := hexps e (by simp)
    linarith

end Nhpp

namespace Nhpp

/-- The head of the sorted time list is the minimum knot time and its last
entry the maximum. -/
theorem kTimes_bounds {knots : List (ℝ × ℝ)} (hval : ValidKnots knots) :
    ∀ p ∈ knots, (kTimes knots).getD 0 0 ≤ p.1 ∧
      p.1 ≤ (kTimes knots).getD ((kTimes knots).length - 1) 0 := by
  intro p hp
  have c := validCtx hval
  have hmem : p.1 ∈ kTimes knots :=
    (kTimes_perm knots).mem_iff.mpr (List.mem_map.mpr ⟨p, hp, rfl⟩)
  rcases List.mem_iff_getElem.mp hmem with ⟨i, hi, hig⟩
  have hgd : (kTimes knots).getD i 0 = p.1 := by
    rw [List.getD_eq_getElem _ 0 hi, hig]
  constructor
  · rw [← hgd]
    exact c.Tmono (by omega) hi
  · rw [← hgd]
    exact c.Tmono (by omega) (by omega)

/-- C1: for every valid knots mapping (at least two knots, unique times,
non-negative rates) and every sequence of strictly positive exponential
draws, the list returned by get_arrivals is strictly increasing, whether or
not a rate function is supplied. -/
theorem C1_arrivals_strictly_increasing {knots : List (ℝ × ℝ)}
    (hval : ValidKnots knots) (func : Option (ℝ → ℝ)) {exps : List ℝ}
    (hexps : ∀ e ∈ exps, (0 : ℝ) < e) (unifs : ℕ → ℝ) {l : List ℝ}
    (hok : get_arrivals knots func exps unifs = .ok l) :
    l.Chain' (· < ·) := by
  have c := validCtx hval
  obtain ⟨hj, hle, hge⟩ := start_invariant hval
  rw [get_arrivals_eq_loop hval] at hok
  exact (arrivalsLoop_ok_spec c knots func exps unifs 0 0 l hexps hj hle hge hok).1

/-- C2: every returned arrival time lies within the closed interval from the
minimum to the maximum knot time (the head and last entry of the sorted time
list, as the first conjunct certifies). -/
theorem C2_arrivals_in_domain {knots : List (ℝ × ℝ)}
    (hval : ValidKnots knots) (func : Option (ℝ → ℝ)) {exps : List ℝ}
    (hexps : ∀ e ∈ exps, (0 : ℝ) < e) (unifs : ℕ → ℝ) {l : List ℝ}
    (hok : get_arrivals knots func exps unifs = .ok l) :
    (∀ p ∈ knots, (kTimes knots).getD 0 0 ≤ p.1 ∧
      p.1 ≤ (kTimes knots).getD ((kTimes knots).length - 1) 0) ∧
    ∀ a ∈ l, (kTimes knots).getD 0 0 ≤ a ∧
      a ≤ (kTimes knots).getD ((kTimes knots).length - 1) 0 := by
  have c := validCtx hval
  obtain ⟨hj, hle, hge⟩ := start_invariant hval
  rw [get_arrivals_eq_loop hval] at hok
  have hspec :=
    (arrivalsLoop_ok_spec c knots func exps unifs 0 0 l hexps hj hle hge hok).2
  refine ⟨kTimes_bounds hval, fun a ha => ?_⟩
  obtain ⟨h1, h2⟩ := hspec a ha
  refine ⟨?_, h2⟩
  have hL0 : (get_integrated_rate_values (kVals knots) (kTimes knots)).getD 0 0 = 0 := by
    rw [c.LgetD (by have := c.hn; omega : 0 < (kTimes knots).length)]
    rfl
  have hiv := invVal_at_left (kTimes knots) (kVals knots)
    (slopesOf (kVals knots) (kTimes knots))
    (get_integrated_rate_values (kVals knots) (kTimes knots)) 0
  rw [hL0] at hiv
  rw [hiv] at h1
  exact le_of_lt h1

/-- C4: with a valid knots mapping and strictly positive draws, the division
inside the inversion never divides by zero: the run never ends with the
inversion ZeroDivisionError, whichever branch of _inv_int_rate_func is
taken. -/
theorem C4_no_inversion_zero_division {knots : List (ℝ × ℝ)}
    (hval : ValidKnots knots) (func : Option (ℝ → ℝ)) {exps : List ℝ}
    (hexps : ∀ e ∈ exps, (0 : ℝ) < e) (unifs : ℕ → ℝ) :
    get_arrivals knots func exps unifs ≠ .error .zeroDivisionInv := by
  have c := validCtx hval
  obtain ⟨hj, hle, hge⟩ := start_invariant hval
  rw [get_arrivals_eq_loop hval]
  exact arrivalsLoop_ne_zeroDivInv c knots func exps unifs 0 0 hexps hj hle hge

/-- C5: if every rate is 0, the total integrated rate is 0, so the first draw
already meets the termination test and get_arrivals returns the empty list
for every sequence of non-negative draws. -/
theorem C5_all_zero_rates_empty {knots : List (ℝ × ℝ)}
    (hnd : (knots.map Prod.fst).Nodup) (hzero : ∀ p ∈ knots, p.2 = 0)
    (func : Option (ℝ → ℝ)) {exps : List ℝ} (hexps : ∀ e ∈ exps, (0 : ℝ) ≤ e)
    (unifs : ℕ → ℝ) :
    get_arrivals knots func exps unifs = .ok [] := by
  apply get_arrivals_empty_of_lastD_zero (fun p hp => (hzero p hp).ge) hnd ?_
    func hexps unifs
  rw [lastD_girv]
  apply cumTrap_zero
  intro i
  by_cases hi : i < (kVals knots).length
  · rw [List.getD_eq_getElem _ 0 hi]
    rcases kVals_mem (List.getElem_mem hi) with ⟨p, hp, hv⟩
    rw [← hv]
    exact hzero p hp
  · rw [List.getD_eq_default _ 0 (by omega)]

/-- C6: with a rate function supplied, the domination ValueError is raised
only when some in-domain point has ratio above 1 (second conjunct), and if
the function is dominated by the envelope everywhere on the domain the error
is never raised (first conjunct). -/
theorem C6_domination_check {knots : List (ℝ × ℝ)} (hval : ValidKnots knots)
    (f : ℝ → ℝ) {exps : List ℝ} (hexps : ∀ e ∈ exps, (0 : ℝ) < e)
    (unifs : ℕ → ℝ) :
    ((∀ x, (kTimes knots).getD 0 0 ≤ x →
        x ≤ (kTimes knots).getD ((kTimes knots).length - 1) 0 →
        f x ≤ piecewiseVal knots x) →
      get_arrivals knots (some f) exps unifs ≠ .error .dominationViolation) ∧
    (get_arrivals knots (some f) exps unifs = .error .dominationViolation →
      ∃ x, (kTimes knots).getD 0 0 ≤ x ∧
        x ≤ (kTimes knots).getD ((kTimes knots).length - 1) 0 ∧
        piecewiseVal knots x ≠ 0 ∧ f x / piecewiseVal knots x > 1) := by
  have c := validCtx hval
  obtain ⟨hj, hle, hge⟩ := start_invariant hval
  constructor
  · intro hdomin
    rw [get_arrivals_eq_loop hval]
    exact arrivalsLoop_ne_domination c hdomin exps unifs 0 0 hexps hj hle hge
  · intro hok
    rw [get_arrivals_eq_loop hval] at hok
    exact arrivalsLoop_domination_reason c exps unifs 0 0 hexps hj hle hge hok

/-- C7: on the same exponential draws, a successful thinning run returns at
most as many arrivals as the run without a rate function, for any uniform
draw streams. -/
theorem C7_thinning_count_le {knots : List (ℝ × ℝ)} (f : ℝ → ℝ)
    (exps : List ℝ) (unifs unifs0 : ℕ → ℝ) {lf : List ℝ}
    (hok : get_arrivals knots (some f) exps unifs = .ok lf) :
    ∃ l0, get_arrivals knots none exps unifs0 = .ok l0 ∧
      lf.length ≤ l0.length := by
  unfold get_arrivals at hok ⊢
  cases hchk : check_arrivals_positive (kVals knots) with
  | error e =>
    rw [hchk] at hok
    cases hok
  | ok u =>
    rw [hchk] at hok
    simp only at hok ⊢
    cases hslp : get_rate_slopes (kVals knots) (kTimes knots) with
    | error e =>
      rw [hslp] at hok
      cases hok
    | ok s =>
      rw [hslp] at hok
      simp only at hok ⊢
      exact arrivalsLoop_thinning_le knots (kTimes knots) (kVals knots) s
        (get_integrated_rate_values (kVals knots) (kTimes knots)) f
        exps unifs unifs0 0 0 lf hok

/-- C8 (amended): _get_rate_slopes raises the duplicate-knots ValueError
whenever the time list it is given has a repeated entry; a duplicated key in
a dict literal, however, never reaches get_arrivals, because the later
binding overwrites the earlier one, as the second conjunct shows on the
literal of the claim. -/
theorem C8_duplicate_times {V T : List ℝ} (h : ¬ T.Nodup) :
    get_rate_slopes V T = .error .dupKnots ∧
      pyDict [((0 : ℝ), (1 : ℝ)), (5, 2), (5, 3)] = [(0, 1), (5, 3)] := by
  refine ⟨slopes_error_of_dup h, ?_⟩
  norm_num [pyDict, dictInsert]

/-- C9: a negative rate makes get_arrivals fail with the ValueError of
_check_arrivals_positive, for every draw sequence, before any draw or
inversion can influence the outcome. -/
theorem C9_negative_rate_error {knots : List (ℝ × ℝ)}
    (hneg : ∃ p ∈ knots, p.2 < 0) (func : Option (ℝ → ℝ)) (exps : List ℝ)
    (unifs : ℕ → ℝ) :
    get_arrivals knots func exps unifs = .error .negRate := by
  unfold get_arrivals
  obtain ⟨p, hp, hv⟩ := hneg
  have hmem : p.2 ∈ kVals knots := by
    unfold kVals
    exact List.mem_map.mpr ⟨p, (sortedKnots_perm knots).mem_iff.mpr hp, rfl⟩
  rw [check_error_of_neg ⟨p.2, hmem, hv⟩]

/-- C10 (amended): a knots dict with fewer than two entries and non-negative
rates makes get_arrivals return the empty list without an error: the slope
list is empty, L = [0], and the first non-negative draw meets the
termination test.  (A negative rate still raises the negative-rate error, so
the non-negativity hypothesis cannot be dropped.) -/
theorem C10_small_knots_empty {knots : List (ℝ × ℝ)} (hlen : knots.length < 2)
    (hnn : ∀ p ∈ knots, 0 ≤ p.2) (func : Option (ℝ → ℝ)) {exps : List ℝ}
    (hexps : ∀ e ∈ exps, (0 : ℝ) ≤ e) (unifs : ℕ → ℝ) :
    get_arrivals knots func exps unifs = .ok [] := by
  have hnd : (knots.map Prod.fst).Nodup := by
    apply nodup_of_short
    rw [List.length_map]
    omega
  apply get_arrivals_empty_of_lastD_zero hnn hnd ?_ func hexps unifs
  rw [lastD_girv]
  have h0 : (kTimes knots).length - 1 = 0 := by
    rw [kTimes_length]
    omega
  rw [h0]
  rfl

end Nhpp

namespace Nhpp

theorem knots2_sorted :
    sortedKnots [((0 : ℝ), (2 : ℝ)), ((5 : ℝ), (2 : ℝ))] = [(0, 2), (5, 2)] := by
  norm_num [sortedKnots, List.insertionSort, List.orderedInsert, keyLE]

theorem knots2_times : kTimes [((0 : ℝ), (2 : ℝ)), ((5 : ℝ), (2 : ℝ))] = [0, 5] := by
  rw [kTimes, knots2_sorted]
  norm_num

theorem knots2_vals : kVals [((0 : ℝ), (2 : ℝ)), ((5 : ℝ), (2 : ℝ))] = [2, 2] := by
  rw [kVals, knots2_sorted]
  norm_num

theorem knots2_valid : ValidKnots [((0 : ℝ), (2 : ℝ)), ((5 : ℝ), (2 : ℝ))] := by
  refine ⟨by norm_num, by norm_num, by norm_num⟩

theorem knots2_slopes : slopesOf [(2 : ℝ), 2] [(0 : ℝ), 5] = [0] := by
  have h1 : List.range 1 = [0] := rfl
  norm_num [slopesOf, h1]

theorem knots2_L : get_integrated_rate_values [(2 : ℝ), 2] [(0 : ℝ), 5] = [0, 10] := by
  norm_num [get_integrated_rate_values, cumTrap, List.range_succ]

end Nhpp

namespace Nhpp

theorem lastD_knots2 : lastD [(0 : ℝ), 10] = 10 := by
  norm_num [lastD]

theorem adv_knots2 {u : ℝ} (h : u < 10) :
    advanceJ [(0 : ℝ), 10] 2 u 0 = .ok 0 := by
  rw [advanceJ]
  have hlen : (0 : ℕ) + 1 < ([(0 : ℝ), 10]).length := by norm_num
  rw [dif_pos hlen, if_neg]
  rintro ⟨h1, _⟩
  simp only [List.getD_cons_succ, List.getD_cons_zero] at h1
  linarith

theorem inv_knots2 (u : ℝ) :
    inv_int_rate_func [(0 : ℝ), 5] [(2 : ℝ), 2] [(0 : ℝ)] [(0 : ℝ), 10] u 0 =
      .ok (u / 2) := by
  unfold inv_int_rate_func
  rw [pyGet_eq_ok (by norm_num)]
  simp only [List.getD_cons_zero, List.getD_cons_succ]
  norm_num

theorem eval_knots2_plain :
    get_arrivals [((0 : ℝ), (2 : ℝ)), ((5 : ℝ), (2 : ℝ))] none [0.4, 0.3]
      (fun _ => 0) = .ok [0.2, 0.35] := by
  rw [get_arrivals_eq_loop knots2_valid, knots2_times, knots2_vals,
    knots2_slopes, knots2_L]
  have hlen5 : ([(0 : ℝ), 5]).length = 2 := rfl
  rw [arrivalsLoop]
  rw [if_neg (by rw [lastD_knots2]; norm_num : ¬ (0 : ℝ) + 0.4 ≥ lastD [(0 : ℝ), 10])]
  rw [hlen5]
  rw [adv_knots2 (by norm_num : (0 : ℝ) + 0.4 < 10)]
  simp only
  rw [inv_knots2]
  simp only
  rw [arrivalsLoop]
  rw [if_neg (by rw [lastD_knots2]; norm_num :
    ¬ (0 : ℝ) + 0.4 + 0.3 ≥ lastD [(0 : ℝ), 10])]
  rw [hlen5]
  rw [adv_knots2 (by norm_num : (0 : ℝ) + 0.4 + 0.3 < 10)]
  simp only
  rw [inv_knots2]
  simp only
  rw [arrivalsLoop]
  simp only
  norm_num

end Nhpp

namespace Nhpp

theorem pyDict_knots2 :
    pyDict [((0 : ℝ), (2 : ℝ)), ((5 : ℝ), (2 : ℝ))] = [(0, 2), (5, 2)] := by
  norm_num [pyDict, dictInsert]

/-- C3: on the dict literal with knots 0 at rate 2 and 5 at rate 2 and the
injected exponential draws 0.4 and 0.3, the two arrivals come out of the
zero-slope linear inverse as exactly u / 2, namely 0.2 and 0.35. -/
theorem C3_zero_slope_inversion :
    get_arrivals (pyDict [((0 : ℝ), (2 : ℝ)), ((5 : ℝ), (2 : ℝ))]) none
      [0.4, 0.3] (fun _ => 0) = .ok [0.2, 0.35] := by
  rw [pyDict_knots2]
  exact eval_knots2_plain

theorem pyDict_dup :
    pyDict [((0 : ℝ), (1 : ℝ)), ((5 : ℝ), (2 : ℝ)), ((5 : ℝ), (3 : ℝ))] =
      [(0, 1), (5, 3)] := by
  norm_num [pyDict, dictInsert]

theorem knots3_sorted :
    sortedKnots [((0 : ℝ), (1 : ℝ)), ((5 : ℝ), (3 : ℝ))] = [(0, 1), (5, 3)] := by
  norm_num [sortedKnots, List.insertionSort, List.orderedInsert, keyLE]

theorem knots3_times : kTimes [((0 : ℝ), (1 : ℝ)), ((5 : ℝ), (3 : ℝ))] = [0, 5] := by
  rw [kTimes, knots3_sorted]
  norm_num

theorem knots3_vals : kVals [((0 : ℝ), (1 : ℝ)), ((5 : ℝ), (3 : ℝ))] = [1, 3] := by
  rw [kVals, knots3_sorted]
  norm_num

theorem knots3_valid : ValidKnots [((0 : ℝ), (1 : ℝ)), ((5 : ℝ), (3 : ℝ))] := by
  refine ⟨by norm_num, by norm_num, by norm_num⟩

theorem knots3_L : get_integrated_rate_values [(1 : ℝ), 3] [(0 : ℝ), 5] = [0, 10] := by
  norm_num [get_integrated_rate_values, cumTrap, List.range_succ]

/-- C8 counterexample: the dict literal with bindings 0 at 1, 5 at 2 and 5 at
3 collapses to the two-knot dict of 0 at 1 and 5 at 3 before get_arrivals
sees it, and the call returns normally instead of raising the duplicate-time
ValueError. -/
theorem C8_counterexample :
    get_arrivals (pyDict [((0 : ℝ), (1 : ℝ)), ((5 : ℝ), (2 : ℝ)), ((5 : ℝ), (3 : ℝ))])
      none [20] (fun _ => 0) = .ok [] := by
  rw [pyDict_dup]
  rw [get_arrivals_eq_loop knots3_valid, knots3_times, knots3_vals, knots3_L]
  rw [arrivalsLoop, if_pos]
  rw [lastD_knots2]
  norm_num

theorem kVals_single : kVals [((0 : ℝ), (-1 : ℝ))] = [-1] := by
  norm_num [kVals, sortedKnots, List.insertionSort, List.orderedInsert]

/-- C10 counterexample: the one-entry dict with the negative rate -1 makes
get_arrivals raise the negative-rate ValueError instead of returning the
empty list, so the claim needs its rates non-negative. -/
theorem C10_counterexample :
    get_arrivals (pyDict [((0 : ℝ), (-1 : ℝ))]) none [1] (fun _ => 0) =
      .error .negRate := by
  have hp : pyDict [((0 : ℝ), (-1 : ℝ))] = [(0, -1)] := by
    norm_num [pyDict, dictInsert]
  rw [hp]
  unfold get_arrivals
  rw [check_error_of_neg ⟨-1, by rw [kVals_single]; norm_num, by norm_num⟩]

end Nhpp

namespace Nhpp

theorem findSeg_knots2 {t : ℝ} (h : ¬ (5 : ℝ) < t) :
    findSeg [(0 : ℝ), 5] t 0 = .ok 0 := by
  rw [findSeg]
  rw [dif_pos (by norm_num : (0 : ℕ) + 1 < ([(0 : ℝ), 5]).length)]
  rw [if_neg]
  simpa using h

theorem pw_knots2 {t : ℝ} (h0 : 0 ≤ t) (h5 : t ≤ 5) :
    get_piecewise_val [((0 : ℝ), (2 : ℝ)), ((5 : ℝ), (2 : ℝ))] t = .ok 2 := by
  unfold get_piecewise_val
  rw [knots2_times, knots2_vals, knots2_slopes]
  have hl : ([(0 : ℝ), 5]).length - 1 = 1 := rfl
  rw [hl]
  rw [pyGet_eq_ok (by norm_num), pyGet_eq_ok (by norm_num)]
  simp only [List.getD_cons_zero, List.getD_cons_succ]
  rw [if_neg (by push_neg; exact ⟨h0, h5⟩ : ¬ (t < 0 ∨ t > 5))]
  have hr1 : List.range 1 = [0] := rfl
  rw [if_neg (by
    rw [hr1]
    rintro ⟨i, hi, hieq⟩
    simp only [List.mem_singleton] at hi
    rw [hi] at hieq
    simp only [List.getD_cons_zero, List.getD_cons_succ] at hieq
    norm_num at hieq)]
  rw [findSeg_knots2 (by linarith : ¬ (5 : ℝ) < t)]
  simp only [List.getD_cons_zero, List.getD_cons_succ]
  norm_num

theorem eval_knots2_thin :
    get_arrivals [((0 : ℝ), (2 : ℝ)), ((5 : ℝ), (2 : ℝ))] (some fun _ => 0)
      [0.4] (fun _ => 1) = .ok [] := by
  rw [get_arrivals_eq_loop knots2_valid, knots2_times, knots2_vals,
    knots2_slopes, knots2_L]
  have hlen5 : ([(0 : ℝ), 5]).length = 2 := rfl
  rw [arrivalsLoop]
  rw [if_neg (by rw [lastD_knots2]; norm_num : ¬ (0 : ℝ) + 0.4 ≥ lastD [(0 : ℝ), 10])]
  rw [hlen5]
  rw [adv_knots2 (by norm_num : (0 : ℝ) + 0.4 < 10)]
  simp only
  rw [inv_knots2]
  simp only
  rw [pw_knots2 (by norm_num) (by norm_num)]
  simp only
  rw [if_neg (by norm_num : ¬ (2 : ℝ) = 0)]
  rw [if_neg (by norm_num : ¬ (0 : ℝ) / 2 > 1)]
  rw [if_neg (by norm_num : ¬ (1 : ℝ) < 0 / 2)]
  rw [arrivalsLoop]

end Nhpp

namespace Nhpp

theorem C1_witness :
    ValidKnots [((0 : ℝ), (2 : ℝ)), ((5 : ℝ), (2 : ℝ))] ∧
    (∀ e ∈ ([0.4, 0.3] : List ℝ), (0 : ℝ) < e) ∧
    get_arrivals [((0 : ℝ), (2 : ℝ)), ((5 : ℝ), (2 : ℝ))] none [0.4, 0.3]
      (fun _ => 0) = .ok [0.2, 0.35] ∧
    ([0.2, 0.35] : List ℝ).Chain' (· < ·) :=
  ⟨knots2_valid, by norm_num, eval_knots2_plain,
    C1_arrivals_strictly_increasing knots2_valid none (by norm_num)
      (fun _ => 0) eval_knots2_plain⟩

theorem C2_witness :
    ValidKnots [((0 : ℝ), (2 : ℝ)), ((5 : ℝ), (2 : ℝ))] ∧
    (∀ e ∈ ([0.4, 0.3] : List ℝ), (0 : ℝ) < e) ∧
    get_arrivals [((0 : ℝ), (2 : ℝ)), ((5 : ℝ), (2 : ℝ))] none [0.4, 0.3]
      (fun _ => 0) = .ok [0.2, 0.35] ∧
    ((∀ p ∈ [((0 : ℝ), (2 : ℝ)), ((5 : ℝ), (2 : ℝ))],
      (kTimes [((0 : ℝ), (2 : ℝ)), ((5 : ℝ), (2 : ℝ))]).getD 0 0 ≤ p.1 ∧
        p.1 ≤ (kTimes [((0 : ℝ), (2 : ℝ)), ((5 : ℝ), (2 : ℝ))]).getD
          ((kTimes [((0 : ℝ), (2 : ℝ)), ((5 : ℝ), (2 : ℝ))]).length - 1) 0) ∧
    ∀ a ∈ ([0.2, 0.35] : List ℝ),
      (kTimes [((0 : ℝ), (2 : ℝ)), ((5 : ℝ), (2 : ℝ))]).getD 0 0 ≤ a ∧
        a ≤ (kTimes [((0 : ℝ), (2 : ℝ)), ((5 : ℝ), (2 : ℝ))]).getD
          ((kTimes [((0 : ℝ), (2 : ℝ)), ((5 : ℝ), (2 : ℝ))]).length - 1) 0) :=
  ⟨knots2_valid, by norm_num, eval_knots2_plain,
    C2_arrivals_in_domain knots2_valid none (by norm_num)
      (fun _ => 0) eval_knots2_plain⟩

theorem C4_witness :
    ValidKnots [((0 : ℝ), (2 : ℝ)), ((5 : ℝ), (2 : ℝ))] ∧
    (∀ e ∈ ([0.4, 0.3] : List ℝ), (0 : ℝ) < e) ∧
    get_arrivals [((0 : ℝ), (2 : ℝ)), ((5 : ℝ), (2 : ℝ))] none [0.4, 0.3]
      (fun _ => 0) ≠ .error .zeroDivisionInv :=
  ⟨knots2_valid, by norm_num,
    C4_no_inversion_zero_division knots2_valid none (by norm_num) (fun _ => 0)⟩

theorem C5_witness :
    (([((0 : ℝ), (0 : ℝ)), ((5 : ℝ), (0 : ℝ))].map Prod.fst).Nodup) ∧
    (∀ p ∈ [((0 : ℝ), (0 : ℝ)), ((5 : ℝ), (0 : ℝ))], p.2 = 0) ∧
    (∀ e ∈ ([1] : List ℝ), (0 : ℝ) ≤ e) ∧
    get_arrivals [((0 : ℝ), (0 : ℝ)), ((5 : ℝ), (0 : ℝ))] none [1]
      (fun _ => 0) = .ok [] :=
  ⟨by norm_num, by norm_num, by norm_num,
    C5_all_zero_rates_empty (by norm_num) (by norm_num) none (by norm_num)
      (fun _ => 0)⟩

theorem C6_witness :
    ValidKnots [((0 : ℝ), (2 : ℝ)), ((5 : ℝ), (2 : ℝ))] ∧
    (∀ e ∈ ([0.4] : List ℝ), (0 : ℝ) < e) ∧
    (((∀ x, (kTimes [((0 : ℝ), (2 : ℝ)), ((5 : ℝ), (2 : ℝ))]).getD 0 0 ≤ x →
        x ≤ (kTimes [((0 : ℝ), (2 : ℝ)), ((5 : ℝ), (2 : ℝ))]).getD
          ((kTimes [((0 : ℝ), (2 : ℝ)), ((5 : ℝ), (2 : ℝ))]).length - 1) 0 →
        (fun _ => (1 : ℝ)) x ≤ piecewiseVal [((0 : ℝ), (2 : ℝ)), ((5 : ℝ), (2 : ℝ))] x) →
      get_arrivals [((0 : ℝ), (2 : ℝ)), ((5 : ℝ), (2 : ℝ))] (some fun _ => (1 : ℝ))
        [0.4] (fun _ => 0) ≠ .error .dominationViolation) ∧
    (get_arrivals [((0 : ℝ), (2 : ℝ)), ((5 : ℝ), (2 : ℝ))] (some fun _ => (1 : ℝ))
        [0.4] (fun _ => 0) = .error .dominationViolation →
      ∃ x, (kTimes [((0 : ℝ), (2 : ℝ)), ((5 : ℝ), (2 : ℝ))]).getD 0 0 ≤ x ∧
        x ≤ (kTimes [((0 : ℝ), (2 : ℝ)), ((5 : ℝ), (2 : ℝ))]).getD
          ((kTimes [((0 : ℝ), (2 : ℝ)), ((5 : ℝ), (2 : ℝ))]).length - 1) 0 ∧
        piecewiseVal [((0 : ℝ), (2 : ℝ)), ((5 : ℝ), (2 : ℝ))] x ≠ 0 ∧
        (fun _ => (1 : ℝ)) x / piecewiseVal [((0 : ℝ), (2 : ℝ)), ((5 : ℝ), (2 : ℝ))] x > 1)) :=
  ⟨knots2_valid, by norm_num,
    C6_domination_check knots2_valid (fun _ => (1 : ℝ)) (by norm_num) (fun _ => 0)⟩

theorem C7_witness :
    get_arrivals [((0 : ℝ), (2 : ℝ)), ((5 : ℝ), (2 : ℝ))] (some fun _ => 0)
      [0.4] (fun _ => 1) = .ok [] ∧
    ∃ l0, get_arrivals [((0 : ℝ), (2 : ℝ)), ((5 : ℝ), (2 : ℝ))] none [0.4]
        (fun _ => 0) = .ok l0 ∧
      ([] : List ℝ).length ≤ l0.length :=
  ⟨eval_knots2_thin,
    C7_thinning_count_le (fun _ => 0) [0.4] (fun _ => 1) (fun _ => 0)
      eval_knots2_thin⟩

theorem C8_witness :
    ¬ ([(5 : ℝ), 5] : List ℝ).Nodup ∧
    (get_rate_slopes [(1 : ℝ), 2] [(5 : ℝ), 5] = .error .dupKnots ∧
      pyDict [((0 : ℝ), (1 : ℝ)), (5, 2), (5, 3)] = [(0, 1), (5, 3)]) :=
  ⟨by simp, C8_duplicate_times (by simp)⟩

theorem C9_witness :
    (∃ p ∈ [((0 : ℝ), (-1 : ℝ)), ((5 : ℝ), (2 : ℝ))], p.2 < 0) ∧
    get_arrivals [((0 : ℝ), (-1 : ℝ)), ((5 : ℝ), (2 : ℝ))] none [1]
      (fun _ => 0) = .error .negRate :=
  ⟨⟨(0, -1), by norm_num, by norm_num⟩,
    C9_negative_rate_error ⟨(0, -1), by norm_num, by norm_num⟩ none [1]
      (fun _ => 0)⟩

theorem C10_witness :
    ([((0 : ℝ), (3 : ℝ))] : List (ℝ × ℝ)).length < 2 ∧
    (∀ p ∈ [((0 : ℝ), (3 : ℝ))], 0 ≤ p.2) ∧
    (∀ e ∈ ([1] : List ℝ), (0 : ℝ) ≤ e) ∧
    get_arrivals [((0 : ℝ), (3 : ℝ))] none [1] (fun _ => 0) = .ok [] :=
  ⟨by norm_num, by norm_num, by norm_num,
    C10_small_knots_empty (by norm_num) (by norm_num) none (by norm_num)
      (fun _ => 0)⟩

end Nhpp
